import Mathlib

/-!
Verification development for the CRE Capital Stack Optimizer backend
(`src/main.py`, `src/schemas.py`).

The allocator is pure arithmetic over Python floats; we embed it over ℚ.
Python's `float("inf")`, which `compute_dscr` returns when the annual debt
service is zero, is modelled by the explicit two-case type `DscrVal`; the
single comparison the source performs against it (`dscr < project.min_dscr`,
which is `False` for `inf`) is modelled by `dscrLtQ`.  Python's stable
`sorted` is modelled by the stable insertion sort `stableSort` (a stable sort
by a total preorder is uniquely determined by its input, so any faithful
stable sort is the same function).  The uncaught Python `AttributeError`
raised at `common_equity.max_share` when `common_equity` is `None`
(src/main.py lines 114 and 143) is modelled by the error value
`StackError.attrNone`, distinct from the four `HTTPException` funding errors.
-/

set_option maxRecDepth 2000

/-- Numeric tolerance 1e-6 used throughout src/main.py. -/
def tol6 : ℚ := 1 / 1000000

/-- Numeric guard 1e-9 used in the LTC ratio denominator and the DSCR
entry-matching test in src/main.py. -/
def tol9 : ℚ := 1 / 1000000000

/-- Instrument category, the `kind` literal of schemas.py. -/
inductive InstrKind
  | debt
  | mezz
  | pref
  | equity
deriving DecidableEq, Repr

/-- Project, from schemas.py.  `max_ltc` is kept as an `Option` because
src/main.py line 104 tests `project.max_ltc is not None`. -/
structure Project where
  name : String
  tdc : ℚ
  noi : ℚ
  min_dscr : ℚ
  max_ltc : Option ℚ
  min_equity : ℚ
deriving DecidableEq, Repr

/-- CapitalOption, from schemas.py. -/
structure CapitalOption where
  name : String
  kind : InstrKind
  annual_cost : ℚ
  points : ℚ
  min_share : ℚ
  max_share : ℚ
  max_ltc : Option ℚ
  enforce_dscr : Bool
deriving DecidableEq, Repr

/-- StackSlice, from schemas.py. -/
structure StackSlice where
  option_name : String
  kind : InstrKind
  amount : ℚ
  share : ℚ
  annual_cost : ℚ
deriving DecidableEq, Repr

/-- CapitalStack, from schemas.py. -/
structure CapitalStack where
  project_name : String
  tdc : ℚ
  wacc : ℚ
  slices : List StackSlice
  notes : Option String
deriving DecidableEq, Repr

/-- Failure modes of `optimize_stack`: the four `HTTPException(400, detail)`
raises, plus the uncaught `AttributeError` from dereferencing
`common_equity` when it is `None` (src/main.py lines 114, 143). -/
inductive StackError
  | httpErr (detail : String)
  | attrNone
deriving DecidableEq, Repr

/-- Result of `compute_dscr`: `float("inf")` or a finite rational. -/
inductive DscrVal
  | inf
  | val (q : ℚ)
deriving DecidableEq, Repr

/-- compute_dscr, src/main.py lines 27-30. -/
def compute_dscr (noi annual_debt_service : ℚ) : DscrVal :=
  if annual_debt_service = 0 then .inf else .val (noi / annual_debt_service)

/-- The comparison `dscr < m` of src/main.py line 123; Python's
`float("inf") < m` is `False` for every finite `m`. -/
def dscrLtQ : DscrVal → ℚ → Bool
  | .inf, _ => false
  | .val q, m => q < m

/-- Stable insertion: x goes after every element `y` with `le y x`.  Used to
model Python's stable `sorted`. -/
def insertLe (le : α → α → Bool) (x : α) : List α → List α
  | [] => [x]
  | y :: ys => if le y x then y :: insertLe le x ys else x :: y :: ys

/-- Stable sort modelling Python's `sorted`: ascending in `le`, elements
that compare equal keep their original order. -/
def stableSort (le : α → α → Bool) (l : List α) : List α :=
  l.foldl (fun acc x => insertLe le x acc) []

/-- eff_cost, src/main.py lines 38-39. -/
def effCost (o : CapitalOption) : ℚ := o.annual_cost + o.points

/-- `sorted(options, key=eff_cost)`, src/main.py line 41. -/
def sortOptions (options : List CapitalOption) : List CapitalOption :=
  stableSort (fun a b => decide (effCost a ≤ effCost b)) options

/-- One ledger entry: an (option, amount) pair, src/main.py line 44. -/
abbrev Alloc := CapitalOption × ℚ

/-- An allocator state: the ledger and the remaining unallocated TDC. -/
abbrev AllocState := List Alloc × ℚ

/-- `sum(a for o, a in allocations if o.name == nm)`, src/main.py
lines 60, 73, 87, 114, 143. -/
def currentAmt (nm : String) (L : List Alloc) : ℚ :=
  (L.map (fun e => if e.1.name = nm then e.2 else 0)).sum

/-- First pass body (minimum shares), src/main.py lines 47-54. -/
def pass1Step (tdc : ℚ) (st : AllocState) (opt : CapitalOption) : AllocState :=
  let min_amt := max (opt.min_share * tdc) 0
  if min_amt > 0 then
    let max_cap := opt.max_share * tdc
    let use := min (min min_amt max_cap) st.2
    if use > 0 then (st.1 ++ [(opt, use)], st.2 - use) else st
  else st

/-- Second pass body (cheapest-first fill), src/main.py lines 57-68.  The
`break` at line 58 is equivalent to skipping: `remaining` never increases in
this pass, so once it is ≤ 1e-6 every later iteration is a no-op. -/
def pass2Step (tdc : ℚ) (st : AllocState) (opt : CapitalOption) : AllocState :=
  if st.2 ≤ tol6 then st
  else
    let current_amt := currentAmt opt.name st.1
    let max_cap := opt.max_share * tdc
    let addable0 := max_cap - current_amt
    let addable := match opt.max_ltc with
      | some l => min addable0 (l * tdc - current_amt)
      | none => addable0
    let add := min addable st.2
    if add > tol6 then (st.1 ++ [(opt, add)], st.2 - add) else st

/-- `next((o for o in options if o.kind == "equity"), None)`, src/main.py
line 71 — searches the original, unsorted list. -/
def findEquity (options : List CapitalOption) : Option CapitalOption :=
  options.find? (fun o => o.kind == InstrKind.equity)

/-- Equity-floor correction, src/main.py lines 72-81.  Note that
`remaining -= adj` can drive `remaining` negative. -/
def equityFloor (p : Project) (ce? : Option CapitalOption) (st : AllocState) :
    AllocState :=
  match ce? with
  | none => st
  | some ce =>
    let current_equity := currentAmt ce.name st.1
    let min_equity_amt := max (p.min_equity * p.tdc) (ce.min_share * p.tdc)
    if current_equity < min_equity_amt then
      let needed := min_equity_amt - current_equity
      let space := ce.max_share * p.tdc - current_equity
      let adj := min needed space
      if adj > 0 then (st.1 ++ [(ce, adj)], st.2 - adj) else st
    else st

/-- Residual force-fill, src/main.py lines 84-92.  If
`0 < add = space < remaining` the stack is silently left under-funded. -/
def forceFill (tdc : ℚ) (ce? : Option CapitalOption) (st : AllocState) :
    Except StackError AllocState :=
  if st.2 > tol6 then
    match ce? with
    | none => .error (.httpErr "No equity option to complete the stack")
    | some ce =>
      let space := ce.max_share * tdc - currentAmt ce.name st.1
      let add := min space st.2
      if add ≤ 0 then
        .error (.httpErr "Constraints too tight to fully fund the stack")
      else .ok (st.1 ++ [(ce, add)], st.2 - add)
  else .ok st

/-- Membership of a kind in `("debt", "mezz")`, src/main.py lines 98, 100,
109, 128. -/
def isDebtKind (k : InstrKind) : Bool :=
  k == InstrKind.debt || k == InstrKind.mezz

/-- total_annual_debt, src/main.py lines 95-99: annual service of
DSCR-enforced debt/mezz entries.  Computed before either correction. -/
def totalAnnualDebt (L : List Alloc) : ℚ :=
  (L.map (fun e =>
    if isDebtKind e.1.kind && e.1.enforce_dscr then e.2 * e.1.annual_cost
    else 0)).sum

/-- total_debt_amount, src/main.py lines 96-101. -/
def totalDebtAmount (L : List Alloc) : ℚ :=
  (L.map (fun e => if isDebtKind e.1.kind then e.2 else 0)).sum

/-- Per-entry proportional reduction of the LTC correction, src/main.py
lines 108-111. -/
def ltcScale (ratio : ℚ) (e : Alloc) : Alloc :=
  if isDebtKind e.1.kind then (e.1, e.2 - e.2 * ratio) else e

/-- Total principal freed by the LTC reduction loop
(`remaining += reduce_amt` summed over src/main.py lines 108-112). -/
def ltcFreed (ratio : ℚ) (L : List Alloc) : ℚ :=
  (L.map (fun e => if isDebtKind e.1.kind then e.2 * ratio else 0)).sum

/-- Aggregate-LTC correction, src/main.py lines 104-119.  When no equity
option exists, line 114 dereferences `None` — an uncaught AttributeError. -/
def ltcCorrection (p : Project) (ce? : Option CapitalOption)
    (st : AllocState) : Except StackError AllocState :=
  match p.max_ltc with
  | none => .ok st
  | some ml =>
    let totalDebt := totalDebtAmount st.1
    if totalDebt > ml * p.tdc then
      let ratio := (totalDebt - ml * p.tdc) / max totalDebt tol9
      let newL := st.1.map (ltcScale ratio)
      let rem := st.2 + ltcFreed ratio st.1
      match ce? with
      | none => .error .attrNone
      | some ce =>
        let space := ce.max_share * p.tdc - currentAmt ce.name newL
        let add := min space rem
        if add < rem - tol6 then
          .error (.httpErr "Equity caps too tight to replace reduced debt")
        else .ok (newL ++ [(ce, add)], rem - add)
    else .ok st

/-- The inner search of src/main.py lines 136-139: reduce the first ledger
entry whose name equals `nm` and whose amount is within 1e-9 of `a`.  If no
entry matches, the ledger is unchanged (but the caller still credits
`remaining`). -/
def reduceFirstMatch (nm : String) (a tp : ℚ) : List Alloc → List Alloc
  | [] => []
  | e :: es =>
    if e.1.name = nm ∧ |e.2 - a| < tol9 then (e.1, e.2 - tp) :: es
    else e :: reduceFirstMatch nm a tp es

/-- `sorted([...], key=lambda x: -x[0].annual_cost)`, src/main.py line 128:
DSCR-enforced debt/mezz entries, stably sorted by descending annual cost. -/
def dscrItems (L : List Alloc) : List Alloc :=
  stableSort (fun x y => decide (y.1.annual_cost ≤ x.1.annual_cost))
    (L.filter (fun e => isDebtKind e.1.kind && e.1.enforce_dscr))

/-- DSCR reduction loop, src/main.py lines 129-141.  Returns the updated
state and the final `delta_annual`. -/
def dscrLoop : List Alloc → AllocState → ℚ → AllocState × ℚ
  | [], st, delta => (st, delta)
  | (o, a) :: rest, st, delta =>
    if delta ≤ tol6 then (st, delta)
    else
      let reducible := a * o.annual_cost
      let take := min reducible delta
      let tp := take / o.annual_cost
      dscrLoop rest (reduceFirstMatch o.name a tp st.1, st.2 + tp) (delta - take)

/-- DSCR correction, src/main.py lines 121-148.  `tad` is the (possibly
stale, pre-LTC-correction) `total_annual_debt` of lines 95-99.  When no
equity option exists, line 143 dereferences `None`. -/
def dscrCorrection (p : Project) (ce? : Option CapitalOption) (tad : ℚ)
    (st : AllocState) : Except StackError AllocState :=
  if dscrLtQ (compute_dscr p.noi tad) p.min_dscr then
    let required := p.noi / p.min_dscr
    let delta0 := max (tad - required) 0
    let res := dscrLoop (dscrItems st.1) st delta0
    match ce? with
    | none => .error .attrNone
    | some ce =>
      let st' := res.1
      let space := ce.max_share * p.tdc - currentAmt ce.name st'.1
      let add := min space st'.2
      if add < st'.2 - tol6 then
        .error (.httpErr "Equity caps too tight to hit DSCR")
      else .ok (st'.1 ++ [(ce, add)], st'.2 - add)
  else .ok st

/-- Aggregation key, src/main.py line 155. -/
abbrev AggKey := String × InstrKind × ℚ

/-- `agg.setdefault(key, 0.0); agg[key] += a` on an insertion-ordered dict,
src/main.py lines 155-157. -/
def aggAdd (k : AggKey) (a : ℚ) : List (AggKey × ℚ) → List (AggKey × ℚ)
  | [] => [(k, a)]
  | x :: xs => if x.1 = k then (x.1, x.2 + a) :: xs else x :: aggAdd k a xs

/-- Aggregation loop, src/main.py lines 151-157: ledger entries with amount
≤ 1e-6 are skipped; the rest are summed by (name, kind, annual_cost). -/
def aggregate (L : List Alloc) : List (AggKey × ℚ) :=
  L.foldl
    (fun acc e =>
      if e.2 ≤ tol6 then acc
      else aggAdd (e.1.name, e.1.kind, e.1.annual_cost) e.2 acc)
    []

/-- Slice construction, src/main.py lines 159-164. -/
def buildSlices (tdc : ℚ) (agg : List (AggKey × ℚ)) : List StackSlice :=
  agg.map (fun x => ⟨x.1.1, x.1.2.1, x.2, x.2 / tdc, x.1.2.2⟩)

/-- total_cost_annual, src/main.py lines 160-163. -/
def totalCostAnnual (agg : List (AggKey × ℚ)) : ℚ :=
  (agg.map (fun x => x.2 * x.1.2.2)).sum

/-- State after the first pass (minimum shares), src/main.py lines 43-54. -/
def stage1 (p : Project) (options : List CapitalOption) : AllocState :=
  (sortOptions options).foldl (pass1Step p.tdc) ([], p.tdc)

/-- State after the second pass (cheapest-first fill), src/main.py
lines 57-68. -/
def stage2 (p : Project) (options : List CapitalOption) : AllocState :=
  (sortOptions options).foldl (pass2Step p.tdc) (stage1 p options)

/-- State after the equity-floor correction, src/main.py lines 70-81. -/
def stage3 (p : Project) (options : List CapitalOption) : AllocState :=
  equityFloor p (findEquity options) (stage2 p options)

/-- State after the residual force-fill, src/main.py lines 83-92. -/
def stage4 (p : Project) (options : List CapitalOption) :
    Except StackError AllocState :=
  forceFill p.tdc (findEquity options) (stage3 p options)

/-- The allocation pipeline of optimize_stack (src/main.py lines 33-148),
returning the final ledger and remaining amount, before aggregation.
`total_annual_debt` is computed from the post-force-fill state (lines
95-99), before the LTC correction, exactly as in the source. -/
def optimize_core (p : Project) (options : List CapitalOption) :
    Except StackError AllocState :=
  match stage4 p options with
  | .error e => .error e
  | .ok st4 =>
    match ltcCorrection p (findEquity options) st4 with
    | .error e => .error e
    | .ok st5 =>
      dscrCorrection p (findEquity options) (totalAnnualDebt st4.1) st5

/-- optimize_stack, src/main.py lines 33-174.  `granularity` is accepted and
never read, exactly as in the source. -/
def optimize_stack (p : Project) (options : List CapitalOption)
    (granularity : ℚ) : Except StackError CapitalStack :=
  match optimize_core p options with
  | .error e => .error e
  | .ok st =>
    let agg := aggregate st.1
    .ok
      { project_name := p.name
        tdc := p.tdc
        wacc := totalCostAnnual agg / p.tdc
        slices := buildSlices p.tdc agg
        notes := some "Heuristic allocation - minimizes cost subject to DSCR/LTC/equity constraints." }

instance {ε α : Type} [DecidableEq ε] [DecidableEq α] : DecidableEq (Except ε α) := fun a b =>
  match a, b with
  | .error e, .error f =>
    if h : e = f then .isTrue (by rw [h])
    else .isFalse (by intro hc; cases hc; exact h rfl)
  | .ok x, .ok y =>
    if h : x = y then .isTrue (by rw [h])
    else .isFalse (by intro hc; cases hc; exact h rfl)
  | .error _, .ok _ => .isFalse (by intro hc; cases hc)
  | .ok _, .error _ => .isFalse (by intro hc; cases hc)

/-! ### Measures on ledgers, aggregates and slices

These are the quantities the specification's testable properties talk
about, expressed over the embedding. -/

/-- Total amount recorded in a ledger. -/
def amountSum (L : List Alloc) : ℚ := (L.map (fun e => e.2)).sum

/-- Total amount of the ledger entries that the aggregation loop skips
(amount ≤ 1e-6, src/main.py line 153). -/
def droppedSum (L : List Alloc) : ℚ :=
  (L.map (fun e => if e.2 ≤ tol6 then e.2 else 0)).sum

/-- Total amount of the ledger entries that survive aggregation. -/
def keptSum (L : List Alloc) : ℚ :=
  (L.map (fun e => if e.2 ≤ tol6 then 0 else e.2)).sum

/-- Sum of slice amounts in a finished stack. -/
def sliceAmountSum (sl : List StackSlice) : ℚ := (sl.map (fun s => s.amount)).sum

/-- Total debt+mezz amount in a finished stack. -/
def debtSliceSum (sl : List StackSlice) : ℚ :=
  (sl.map (fun s => if isDebtKind s.kind then s.amount else 0)).sum

/-- Whether the instrument registered in `options` under this name has
`enforce_dscr` set (first match, as every lookup in the source is by
name). -/
def enfFlag (options : List CapitalOption) (nm : String) : Bool :=
  match options.find? (fun o => o.name == nm) with
  | some o => o.enforce_dscr
  | none => false

/-- Annual debt service carried by the DSCR-enforced debt/mezz slices of a
finished stack. -/
def enforcedServiceOfSlices (options : List CapitalOption)
    (sl : List StackSlice) : ℚ :=
  (sl.map (fun s =>
    if isDebtKind s.kind && enfFlag options s.option_name then
      s.amount * s.annual_cost
    else 0)).sum

/-- Total amount a finished stack allocates to one instrument
(identified by name and kind, the discriminating parts of the
aggregation key). -/
def instrAmount (o : CapitalOption) (sl : List StackSlice) : ℚ :=
  (sl.map (fun s =>
    if s.option_name = o.name ∧ s.kind = o.kind then s.amount else 0)).sum

/-- The option list has pairwise-distinct instrument names (the
uniqueness requirement the spec itself calls out in §9). -/
def distinctNames (options : List CapitalOption) : Prop :=
  options.Pairwise (fun a b => a.name ≠ b.name)

instance (options : List CapitalOption) : Decidable (distinctNames options) := by
  unfold distinctNames
  infer_instance

/-- Ledger entries whose option carries a given name. -/
def entriesNamed (nm : String) (L : List Alloc) : List Alloc :=
  L.filter (fun e => decide (e.1.name = nm))

/-- Number of ledger entries whose option carries a given name. -/
def namedCount (nm : String) (L : List Alloc) : ℕ := (entriesNamed nm L).length

/-- Amount a ledger keeps (post-aggregation) for a given name. -/
def keptNamed (nm : String) (L : List Alloc) : ℚ :=
  (L.map (fun e => if e.1.name = nm ∧ tol6 < e.2 then e.2 else 0)).sum

/-- Every ledger amount is nonnegative. -/
def NonnegLedger (L : List Alloc) : Prop := ∀ e ∈ L, 0 ≤ e.2

/-- Every debt/mezz ledger amount is nonnegative. -/
def DebtNonneg (L : List Alloc) : Prop :=
  ∀ e ∈ L, isDebtKind e.1.kind = true → 0 ≤ e.2

/-- Feasibility in the sense of claim C1: some assignment of amounts to
the given options funds tdc while satisfying every min/max share cap, the
aggregate LTC cap, the DSCR covenant and the minimum-equity floor.
(This predicate formalises the claim hypothesis, not source code.) -/
def Feasible (p : Project) (options : List CapitalOption) : Prop :=
  ∃ amts : List ℚ,
    amts.length = options.length ∧
    amts.sum = p.tdc ∧
    (∀ x ∈ options.zip amts,
      x.1.min_share * p.tdc ≤ x.2 ∧ x.2 ≤ x.1.max_share * p.tdc) ∧
    (∀ m, p.max_ltc = some m →
      ((options.zip amts).map
        (fun x => if isDebtKind x.1.kind then x.2 else 0)).sum ≤ m * p.tdc) ∧
    dscrLtQ
      (compute_dscr p.noi
        (((options.zip amts).map
          (fun x =>
            if isDebtKind x.1.kind && x.1.enforce_dscr then
              x.2 * x.1.annual_cost
            else 0)).sum))
      p.min_dscr = false ∧
    p.min_equity * p.tdc ≤
      ((options.zip amts).map
        (fun x => if x.1.kind = InstrKind.equity then x.2 else 0)).sum

/-! ### Generic list lemmas -/

theorem foldlInv {α β : Type} (Inv : β → Prop) (step : β → α → β) :
    ∀ (l : List α) (st : β),
      (∀ st' o, o ∈ l → Inv st' → Inv (step st' o)) → Inv st →
      Inv (l.foldl step st)
  | [], _, _, h => h
  | o :: l, st, hstep, h =>
    foldlInv Inv step l (step st o)
      (fun st' o' ho' => hstep st' o' (List.mem_cons_of_mem _ ho'))
      (hstep st o (List.mem_cons_self _ _) h)

theorem insertLe_map_sum (f : α → ℚ) (le : α → α → Bool) (x : α) :
    ∀ l : List α, ((insertLe le x l).map f).sum = f x + (l.map f).sum
  | [] => by simp [insertLe]
  | y :: ys => by
    by_cases h : le y x
    · simp only [insertLe, h, if_true, List.map_cons, List.sum_cons,
        insertLe_map_sum f le x ys]
      ring
    · simp [insertLe, h]

theorem stableSort_map_sum (f : α → ℚ) (le : α → α → Bool) (l : List α) :
    ((stableSort le l).map f).sum = (l.map f).sum := by
  suffices h : ∀ (l acc : List α),
      (((l.foldl (fun acc x => insertLe le x acc) acc)).map f).sum =
        (acc.map f).sum + (l.map f).sum by
    simpa [stableSort] using h l []
  intro l
  induction l with
  | nil => simp
  | cons x xs ih =>
    intro acc
    rw [List.foldl_cons, ih, insertLe_map_sum]
    simp
    ring

theorem insertLe_filter_length (p : α → Bool) (le : α → α → Bool) (x : α) :
    ∀ l, ((insertLe le x l).filter p).length =
      (l.filter p).length + if p x then 1 else 0
  | [] => by by_cases hx : p x <;> simp [insertLe, hx]
  | y :: ys => by
    by_cases h : le y x
    · by_cases hy : p y <;>
        simp [insertLe, h, List.filter_cons, hy,
          insertLe_filter_length p le x ys] <;> omega
    · by_cases hy : p y <;> by_cases hx : p x <;>
        simp [insertLe, h, List.filter_cons, hy, hx] <;> omega

theorem stableSort_filter_length (p : α → Bool) (le : α → α → Bool)
    (l : List α) :
    ((stableSort le l).filter p).length = (l.filter p).length := by
  suffices h : ∀ (l acc : List α),
      (((l.foldl (fun acc x => insertLe le x acc) acc)).filter p).length =
        (acc.filter p).length + (l.filter p).length by
    simpa [stableSort] using h l []
  intro l
  induction l with
  | nil => simp
  | cons x xs ih =>
    intro acc
    rw [List.foldl_cons, ih, insertLe_filter_length]
    by_cases hx : p x <;> simp [List.filter_cons, hx] <;> omega

theorem insertLe_mem (le : α → α → Bool) (x : α) :
    ∀ (l : List α) (y : α), y ∈ insertLe le x l ↔ y = x ∨ y ∈ l
  | [], y => by simp [insertLe]
  | z :: zs, y => by
    by_cases h : le z x
    · simp only [insertLe, h, if_true, List.mem_cons, insertLe_mem le x zs y]
      tauto
    · simp only [insertLe, if_neg h, List.mem_cons]

theorem stableSort_mem (le : α → α → Bool) (l : List α) (y : α) :
    y ∈ stableSort le l ↔ y ∈ l := by
  suffices h : ∀ (l acc : List α) (y : α),
      (y ∈ l.foldl (fun acc x => insertLe le x acc) acc) ↔
        y ∈ acc ∨ y ∈ l by
    have := h l [] y
    simpa [stableSort] using this
  intro l
  induction l with
  | nil => simp
  | cons x xs ih =>
    intro acc y
    rw [List.foldl_cons, ih, insertLe_mem]
    simp only [List.mem_cons]
    tauto

/-! ### Case analyses for the allocation passes -/

theorem pass1Step_cases (tdc : ℚ) (st : AllocState) (opt : CapitalOption) :
    pass1Step tdc st opt = st ∨
      ∃ x, 0 < x ∧ pass1Step tdc st opt = (st.1 ++ [(opt, x)], st.2 - x) := by
  unfold pass1Step
  by_cases h1 : max (opt.min_share * tdc) 0 > 0
  · by_cases h2 :
      min (min (max (opt.min_share * tdc) 0) (opt.max_share * tdc)) st.2 > 0
    · refine .inr ⟨_, h2, ?_⟩
      simp only [h1, if_true, h2]
    · simp only [h1, if_true, h2, if_false]
      exact .inl (by trivial)
  · simp only [h1, if_false]
    exact .inl (by trivial)

theorem pass1Step_of_nonpos (tdc : ℚ) (st : AllocState) (opt : CapitalOption)
    (h : opt.min_share * tdc ≤ 0) : pass1Step tdc st opt = st := by
  unfold pass1Step
  have h0 : max (opt.min_share * tdc) 0 = 0 := max_eq_right h
  simp [h0]

theorem pass2Step_cases (tdc : ℚ) (st : AllocState) (opt : CapitalOption) :
    pass2Step tdc st opt = st ∨
      ∃ x, tol6 < x ∧ pass2Step tdc st opt = (st.1 ++ [(opt, x)], st.2 - x) := by
  unfold pass2Step
  by_cases h1 : st.2 ≤ tol6
  · simp only [h1, if_true]
    exact .inl (by trivial)
  · simp only [h1, if_false]
    set addable :=
      (match opt.max_ltc with
        | some l =>
          min (opt.max_share * tdc - currentAmt opt.name st.1)
            (l * tdc - currentAmt opt.name st.1)
        | none => opt.max_share * tdc - currentAmt opt.name st.1) with haddable
    by_cases h2 : min addable st.2 > tol6
    · exact .inr ⟨_, h2, by simp only [h2, if_true]⟩
    · simp only [h2, if_false]
      exact .inl (by trivial)

theorem equityFloor_cases (p : Project) (ce? : Option CapitalOption)
    (st : AllocState) :
    equityFloor p ce? st = st ∨
      ∃ ce x, ce? = some ce ∧ 0 < x ∧
        equityFloor p ce? st = (st.1 ++ [(ce, x)], st.2 - x) := by
  unfold equityFloor
  match ce? with
  | none => exact .inl (by trivial)
  | some ce =>
    by_cases h1 :
        currentAmt ce.name st.1 <
          max (p.min_equity * p.tdc) (ce.min_share * p.tdc)
    · by_cases h2 :
        min (max (p.min_equity * p.tdc) (ce.min_share * p.tdc) -
            currentAmt ce.name st.1)
          (ce.max_share * p.tdc - currentAmt ce.name st.1) > 0
      · refine .inr ⟨ce, _, rfl, h2, ?_⟩
        simp only [h1, if_true, h2]
      · simp only [h1, if_true, h2, if_false]
        exact .inl (by trivial)
    · simp only [h1, if_false]
      exact .inl (by trivial)

theorem forceFill_ok (tdc : ℚ) (ce? : Option CapitalOption) (st out : AllocState)
    (h : forceFill tdc ce? st = .ok out) :
    out = st ∨
      ∃ ce x, ce? = some ce ∧ 0 < x ∧ out = (st.1 ++ [(ce, x)], st.2 - x) := by
  unfold forceFill at h
  by_cases h1 : st.2 > tol6
  · simp only [h1, if_true] at h
    match ce? with
    | none => exact absurd h (by simp)
    | some ce =>
      simp only at h
      by_cases h2 : min (ce.max_share * tdc - currentAmt ce.name st.1) st.2 ≤ 0
      · simp only [h2, if_true] at h
        exact absurd h (by simp)
      · simp only [h2, if_false] at h
        cases h
        exact .inr ⟨ce, _, rfl, lt_of_not_le h2, rfl⟩
  · simp only [h1, if_false] at h
    exact .inl (by cases h; rfl)

theorem ltcCorrection_ok (p : Project) (ce? : Option CapitalOption)
    (st out : AllocState) (h : ltcCorrection p ce? st = .ok out) :
    (out = st ∧
      ∀ ml, p.max_ltc = some ml → ¬totalDebtAmount st.1 > ml * p.tdc) ∨
      ∃ ml ce ratio rem add,
        p.max_ltc = some ml ∧ ce? = some ce ∧
        totalDebtAmount st.1 > ml * p.tdc ∧
        ratio =
          (totalDebtAmount st.1 - ml * p.tdc) / max (totalDebtAmount st.1) tol9 ∧
        rem = st.2 + ltcFreed ratio st.1 ∧
        add =
          min (ce.max_share * p.tdc -
              currentAmt ce.name (st.1.map (ltcScale ratio))) rem ∧
        ¬add < rem - tol6 ∧
        out = (st.1.map (ltcScale ratio) ++ [(ce, add)], rem - add) := by
  unfold ltcCorrection at h
  split at h
  next hml =>
    refine .inl ⟨by cases h; rfl, fun ml hml2 => ?_⟩
    rw [hml] at hml2
    cases hml2
  next ml hml =>
    simp only at h
    split at h
    next h1 =>
      rcases hce : ce? with _ | ce
      all_goals rw [hce] at h
      · exact absurd h (by simp)
      · simp only at h
        split at h
        next h2 => exact absurd h (by simp)
        next h2 =>
          cases h
          exact .inr ⟨ml, ce, _, _, _, hml, rfl, h1, rfl, rfl, rfl, h2, rfl⟩
    next h1 =>
      refine .inl ⟨by cases h; rfl, fun ml2 hml2 => ?_⟩
      rw [hml] at hml2
      cases hml2
      exact h1

theorem dscrCorrection_ok (p : Project) (ce? : Option CapitalOption) (tad : ℚ)
    (st out : AllocState) (h : dscrCorrection p ce? tad st = .ok out) :
    (dscrLtQ (compute_dscr p.noi tad) p.min_dscr = false ∧ out = st) ∨
      ∃ ce res add,
        dscrLtQ (compute_dscr p.noi tad) p.min_dscr = true ∧
        ce? = some ce ∧
        res = dscrLoop (dscrItems st.1) st (max (tad - p.noi / p.min_dscr) 0) ∧
        add = min (ce.max_share * p.tdc - currentAmt ce.name res.1.1) res.1.2 ∧
        ¬add < res.1.2 - tol6 ∧
        out = (res.1.1 ++ [(ce, add)], res.1.2 - add) := by
  unfold dscrCorrection at h
  split at h
  next hlt =>
    simp only at h
    rcases hce : ce? with _ | ce
    all_goals rw [hce] at h
    · exact absurd h (by simp)
    · simp only at h
      split at h
      next h2 => exact absurd h (by simp)
      next h2 =>
        cases h
        exact .inr ⟨ce, _, _, hlt, rfl, rfl, rfl, h2, rfl⟩
  next hlt =>
    cases h
    exact .inl ⟨Bool.of_not_eq_true hlt, rfl⟩

theorem forceFill_error (tdc : ℚ) (ce? : Option CapitalOption) (st : AllocState)
    (e : StackError) (h : forceFill tdc ce? st = .error e) :
    (e = .httpErr "No equity option to complete the stack" ∧ ce? = none) ∨
      e = .httpErr "Constraints too tight to fully fund the stack" := by
  unfold forceFill at h
  split at h
  · split at h
    · exact .inl ⟨by cases h; rfl, rfl⟩
    · simp only at h
      split at h
      · exact .inr (by cases h; rfl)
      · exact absurd h (by simp)
  · exact absurd h (by simp)

theorem ltcCorrection_error (p : Project) (ce? : Option CapitalOption)
    (st : AllocState) (e : StackError) (h : ltcCorrection p ce? st = .error e) :
    (e = .attrNone ∧ ce? = none) ∨
      e = .httpErr "Equity caps too tight to replace reduced debt" := by
  unfold ltcCorrection at h
  split at h
  · exact absurd h (by simp)
  · simp only at h
    split at h
    · split at h
      · exact .inl ⟨by cases h; rfl, rfl⟩
      · split at h
        · exact .inr (by cases h; rfl)
        · exact absurd h (by simp)
    · exact absurd h (by simp)

theorem dscrCorrection_error (p : Project) (ce? : Option CapitalOption)
    (tad : ℚ) (st : AllocState) (e : StackError)
    (h : dscrCorrection p ce? tad st = .error e) :
    (e = .attrNone ∧ ce? = none) ∨
      e = .httpErr "Equity caps too tight to hit DSCR" := by
  unfold dscrCorrection at h
  split at h
  · simp only at h
    split at h
    · exact .inl ⟨by cases h; rfl, rfl⟩
    · split at h
      · exact .inr (by cases h; rfl)
      · exact absurd h (by simp)
  · exact absurd h (by simp)

/-! ### Ledger measure lemmas -/

theorem sum_inv_append {st : AllocState} {C : ℚ} (o : CapitalOption) (x : ℚ)
    (h : amountSum st.1 + st.2 = C) :
    amountSum (st.1 ++ [(o, x)]) + (st.2 - x) = C := by
  simp only [amountSum, List.map_append, List.map_cons, List.map_nil,
    List.sum_append, List.sum_cons, List.sum_nil] at *
  linarith

theorem ltcScale_amountSum (r : ℚ) (L : List Alloc) :
    amountSum (L.map (ltcScale r)) = amountSum L - ltcFreed r L := by
  induction L with
  | nil => simp [amountSum, ltcFreed]
  | cons e es ih =>
    by_cases hk : isDebtKind e.1.kind <;>
      simp only [amountSum, ltcFreed, ltcScale, hk, List.map_cons,
        List.sum_cons, if_true, if_false, Bool.false_eq_true] at * <;>
      linarith

theorem stage3_sum (p : Project) (opts : List CapitalOption) :
    amountSum (stage3 p opts).1 + (stage3 p opts).2 = p.tdc := by
  have h1 :
      amountSum (stage1 p opts).1 + (stage1 p opts).2 = p.tdc := by
    refine foldlInv (fun st : AllocState => amountSum st.1 + st.2 = p.tdc)
      _ _ _ (fun st o _ hInv => ?_) (by simp [amountSum])
    rcases pass1Step_cases p.tdc st o with hc | ⟨x, _, hc⟩ <;> rw [hc]
    · exact hInv
    · exact sum_inv_append o x hInv
  have h2 : amountSum (stage2 p opts).1 + (stage2 p opts).2 = p.tdc := by
    refine foldlInv (fun st : AllocState => amountSum st.1 + st.2 = p.tdc)
      _ _ _ (fun st o _ hInv => ?_) h1
    rcases pass2Step_cases p.tdc st o with hc | ⟨x, _, hc⟩ <;> rw [hc]
    · exact hInv
    · exact sum_inv_append o x hInv
  rcases equityFloor_cases p (findEquity opts) (stage2 p opts) with hc | ⟨ce, x, _, _, hc⟩ <;>
    (unfold stage3; rw [hc])
  · exact h2
  · exact sum_inv_append ce x h2

theorem stage4_sum (p : Project) (opts : List CapitalOption) (st4 : AllocState)
    (h : stage4 p opts = .ok st4) :
    amountSum st4.1 + st4.2 = p.tdc := by
  rcases forceFill_ok _ _ _ _ h with hc | ⟨ce, x, _, _, hc⟩ <;> rw [hc]
  · exact stage3_sum p opts
  · exact sum_inv_append ce x (stage3_sum p opts)

theorem ltc_sum (p : Project) (ce? : Option CapitalOption) (st st5 : AllocState)
    (h : ltcCorrection p ce? st = .ok st5) :
    amountSum st5.1 + st5.2 = amountSum st.1 + st.2 := by
  rcases ltcCorrection_ok _ _ _ _ h with ⟨hc, _⟩ | ⟨ml, ce, ratio, rem, add, _,
    _, _, hratio, hrem, hadd, _, hc⟩
  · rw [hc]
  · rw [hc]
    simp only [amountSum, List.map_append, List.map_cons, List.map_nil,
      List.sum_append, List.sum_cons, List.sum_nil]
    have hs := ltcScale_amountSum ratio st.1
    simp only [amountSum] at hs
    rw [hs, hrem]
    ring

theorem nonneg_append {st : AllocState} (o : CapitalOption) (x : ℚ)
    (hx : 0 ≤ x) (h : NonnegLedger st.1) : NonnegLedger (st.1 ++ [(o, x)]) := by
  intro e he
  rcases List.mem_append.mp he with h1 | h1
  · exact h e h1
  · simp only [List.mem_singleton] at h1
    rw [h1]
    exact hx

theorem stage3_nonneg (p : Project) (opts : List CapitalOption) :
    NonnegLedger (stage3 p opts).1 := by
  have h1 : NonnegLedger (stage1 p opts).1 := by
    refine foldlInv (fun st : AllocState => NonnegLedger st.1)
      _ _ _ (fun st o _ hInv => ?_) (by intro e he; cases he)
    rcases pass1Step_cases p.tdc st o with hc | ⟨x, hx, hc⟩ <;> rw [hc]
    · exact hInv
    · exact nonneg_append o x hx.le hInv
  have h2 : NonnegLedger (stage2 p opts).1 := by
    refine foldlInv (fun st : AllocState => NonnegLedger st.1)
      _ _ _ (fun st o _ hInv => ?_) h1
    rcases pass2Step_cases p.tdc st o with hc | ⟨x, hx, hc⟩ <;> rw [hc]
    · exact hInv
    · refine nonneg_append o x ?_ hInv
      have := tol6
      have ht : (0 : ℚ) < tol6 := by norm_num [tol6]
      linarith
  rcases equityFloor_cases p (findEquity opts) (stage2 p opts) with hc | ⟨ce, x, _, hx, hc⟩ <;>
    (unfold stage3; rw [hc])
  · exact h2
  · exact nonneg_append ce x hx.le h2

theorem stage4_nonneg (p : Project) (opts : List CapitalOption)
    (st4 : AllocState) (h : stage4 p opts = .ok st4) :
    NonnegLedger st4.1 := by
  rcases forceFill_ok _ _ _ _ h with hc | ⟨ce, x, _, hx, hc⟩ <;> rw [hc]
  · exact stage3_nonneg p opts
  · exact nonneg_append ce x hx.le (stage3_nonneg p opts)

/-- Every ledger option comes from the input option list. -/
def OptsClosed (opts : List CapitalOption) (L : List Alloc) : Prop :=
  ∀ e ∈ L, e.1 ∈ opts

theorem optsClosed_append {opts : List CapitalOption} {st : AllocState}
    (o : CapitalOption) (x : ℚ) (ho : o ∈ opts) (h : OptsClosed opts st.1) :
    OptsClosed opts (st.1 ++ [(o, x)]) := by
  intro e he
  rcases List.mem_append.mp he with h1 | h1
  · exact h e h1
  · simp only [List.mem_singleton] at h1
    rw [h1]
    exact ho

theorem findEquity_mem {opts : List CapitalOption} {ce : CapitalOption}
    (h : findEquity opts = some ce) : ce ∈ opts :=
  List.mem_of_find?_eq_some h

theorem findEquity_kind {opts : List CapitalOption} {ce : CapitalOption}
    (h : findEquity opts = some ce) : ce.kind = InstrKind.equity := by
  have := List.find?_some h
  simpa using this

theorem stage4_closed (p : Project) (opts : List CapitalOption)
    (st4 : AllocState) (h : stage4 p opts = .ok st4) :
    OptsClosed opts st4.1 := by
  have h1 : OptsClosed opts (stage1 p opts).1 := by
    refine foldlInv (fun st : AllocState => OptsClosed opts st.1)
      _ _ _ (fun st o ho hInv => ?_) (by intro e he; cases he)
    rcases pass1Step_cases p.tdc st o with hc | ⟨x, _, hc⟩ <;> rw [hc]
    · exact hInv
    · exact optsClosed_append o x ((stableSort_mem _ opts o).mp ho) hInv
  have h2 : OptsClosed opts (stage2 p opts).1 := by
    refine foldlInv (fun st : AllocState => OptsClosed opts st.1)
      _ _ _ (fun st o ho hInv => ?_) h1
    rcases pass2Step_cases p.tdc st o with hc | ⟨x, _, hc⟩ <;> rw [hc]
    · exact hInv
    · exact optsClosed_append o x ((stableSort_mem _ opts o).mp ho) hInv
  have h3 : OptsClosed opts (stage3 p opts).1 := by
    rcases equityFloor_cases p (findEquity opts) (stage2 p opts) with hc |
      ⟨ce, x, hce, _, hc⟩ <;> (unfold stage3; rw [hc])
    · exact h2
    · exact optsClosed_append ce x (findEquity_mem hce) h2
  rcases forceFill_ok _ _ _ _ h with hc | ⟨ce, x, hce, _, hc⟩ <;> rw [hc]
  · exact h3
  · exact optsClosed_append ce x (findEquity_mem hce) h3

/-! ### Name-indexed ledger lemmas -/

theorem entriesNamed_append (nm : String) (L M : List Alloc) :
    entriesNamed nm (L ++ M) = entriesNamed nm L ++ entriesNamed nm M := by
  simp [entriesNamed]

theorem namedCount_append_single (nm : String) (L : List Alloc)
    (o : CapitalOption) (x : ℚ) :
    namedCount nm (L ++ [(o, x)]) =
      namedCount nm L + if o.name = nm then 1 else 0 := by
  by_cases hn : o.name = nm <;>
    simp [namedCount, entriesNamed_append, entriesNamed, hn]

theorem distinct_name_inj {opts : List CapitalOption}
    (h : distinctNames opts) :
    ∀ {a b : CapitalOption}, a ∈ opts → b ∈ opts → a.name = b.name → a = b := by
  induction opts with
  | nil => intro a b ha; cases ha
  | cons o l ih =>
    have hp := (List.pairwise_cons.mp h)
    intro a b ha hb hn
    rcases List.mem_cons.mp ha with rfl | ha' <;>
      rcases List.mem_cons.mp hb with rfl | hb'
    · rfl
    · exact absurd hn (hp.1 b hb')
    · exact absurd hn.symm (hp.1 a ha')
    · exact ih hp.2 ha' hb' hn

theorem distinct_filter_le_one {opts : List CapitalOption}
    (h : distinctNames opts) (nm : String) :
    (opts.filter (fun o => decide (o.name = nm))).length ≤ 1 := by
  induction opts with
  | nil => simp
  | cons o l ih =>
    have hp := List.pairwise_cons.mp h
    by_cases hn : o.name = nm
    · have hz : (l.filter (fun o => decide (o.name = nm))).length = 0 := by
        rw [List.length_eq_zero, List.filter_eq_nil]
        intro b hb
        simp only [decide_eq_true_eq]
        intro hbn
        exact hp.1 b hb (hn.trans hbn.symm)
      simp [List.filter_cons, hn, hz]
    · simpa [List.filter_cons, hn] using ih hp.2

theorem stage1_namedCount_zero (p : Project) (opts : List CapitalOption)
    (nm : String) (h : ∀ o ∈ opts, o.name = nm → o.min_share * p.tdc ≤ 0) :
    namedCount nm (stage1 p opts).1 = 0 := by
  refine foldlInv (fun st : AllocState => namedCount nm st.1 = 0)
    _ _ _ (fun st o ho hInv => ?_) (by simp [namedCount, entriesNamed])
  by_cases hn : o.name = nm
  · rw [pass1Step_of_nonpos p.tdc st o
      (h o ((stableSort_mem _ opts o).mp ho) hn)]
    exact hInv
  · rcases pass1Step_cases p.tdc st o with hc | ⟨x, _, hc⟩ <;> rw [hc]
    · exact hInv
    · rw [namedCount_append_single, hInv, if_neg hn]

theorem pass2_foldl_namedCount (tdc : ℚ) (nm : String) :
    ∀ (l : List CapitalOption) (st : AllocState),
      namedCount nm ((l.foldl (pass2Step tdc) st).1) ≤
        namedCount nm st.1 +
          (l.filter (fun o => decide (o.name = nm))).length
  | [], st => by simp
  | o :: l, st => by
    have hstep : namedCount nm ((pass2Step tdc st o).1) ≤
        namedCount nm st.1 + if o.name = nm then 1 else 0 := by
      rcases pass2Step_cases tdc st o with hc | ⟨x, _, hc⟩ <;> rw [hc]
      · exact Nat.le_add_right _ _
      · rw [namedCount_append_single]
    have htail := pass2_foldl_namedCount tdc nm l (pass2Step tdc st o)
    rw [List.foldl_cons]
    refine le_trans htail ?_
    by_cases hn : o.name = nm
    · have hl : ((o :: l).filter (fun o => decide (o.name = nm))).length =
          (l.filter (fun o => decide (o.name = nm))).length + 1 := by
        simp [List.filter_cons, hn]
      rw [hl]
      rw [if_pos hn] at hstep
      omega
    · have hl : ((o :: l).filter (fun o => decide (o.name = nm))).length =
          (l.filter (fun o => decide (o.name = nm))).length := by
        simp [List.filter_cons, hn]
      rw [hl]
      rw [if_neg hn] at hstep
      omega

theorem currentAmt_append (nm : String) (L : List Alloc) (o : CapitalOption)
    (x : ℚ) :
    currentAmt nm (L ++ [(o, x)]) =
      currentAmt nm L + if o.name = nm then x else 0 := by
  by_cases hn : o.name = nm <;> simp [currentAmt, hn]

theorem keptNamed_append (nm : String) (L : List Alloc) (o : CapitalOption)
    (x : ℚ) :
    keptNamed nm (L ++ [(o, x)]) =
      keptNamed nm L + if o.name = nm ∧ tol6 < x then x else 0 := by
  by_cases hn : o.name = nm <;> by_cases hx : tol6 < x <;>
    simp [keptNamed, hn, hx]

theorem keptNamed_le_append (nm : String) (L : List Alloc) (o : CapitalOption)
    (x : ℚ) : keptNamed nm L ≤ keptNamed nm (L ++ [(o, x)]) := by
  rw [keptNamed_append]
  have htol : (0 : ℚ) < tol6 := by norm_num [tol6]
  by_cases hc : o.name = nm ∧ tol6 < x
  · rw [if_pos hc]
    linarith [hc.2]
  · rw [if_neg hc]
    simp

theorem currentAmt_le_keptNamed (nm : String) :
    ∀ L : List Alloc,
      currentAmt nm L ≤ keptNamed nm L + (namedCount nm L : ℚ) * tol6
  | [] => by simp [currentAmt, keptNamed, namedCount, entriesNamed]
  | e :: es => by
    have ih := currentAmt_le_keptNamed nm es
    have htol : (0 : ℚ) < tol6 := by norm_num [tol6]
    have hc0 : (0 : ℚ) ≤ (namedCount nm es : ℚ) := Nat.cast_nonneg _
    have hcur : currentAmt nm (e :: es) =
        (if e.1.name = nm then e.2 else 0) + currentAmt nm es := by
      simp [currentAmt]
    have hkept : keptNamed nm (e :: es) =
        (if e.1.name = nm ∧ tol6 < e.2 then e.2 else 0) + keptNamed nm es := by
      simp [keptNamed]
    have hcnt : (namedCount nm (e :: es) : ℚ) =
        (if e.1.name = nm then 1 else 0) + (namedCount nm es : ℚ) := by
      by_cases hn : e.1.name = nm <;>
        simp [namedCount, entriesNamed, List.filter_cons, hn] <;> push_cast <;>
        ring
    rw [hcur, hkept, hcnt]
    by_cases hn : e.1.name = nm
    · by_cases hx : tol6 < e.2
      · rw [if_pos hn, if_pos ⟨hn, hx⟩, if_pos hn]
        linarith
      · rw [if_pos hn, if_neg (fun hc => hx hc.2), if_pos hn]
        have hle : e.2 ≤ tol6 := le_of_not_lt hx
        linarith
    · rw [if_neg hn, if_neg (fun hc => hn hc.1), if_neg hn]
      linarith

theorem keptNamed_eq_filter (nm : String) :
    ∀ L : List Alloc,
      keptNamed nm L =
        ((entriesNamed nm L).map (fun e => if tol6 < e.2 then e.2 else 0)).sum
  | [] => by simp [keptNamed, entriesNamed]
  | e :: es => by
    have ih := keptNamed_eq_filter nm es
    by_cases hn : e.1.name = nm
    · have h1 : keptNamed nm (e :: es) =
          (if tol6 < e.2 then e.2 else 0) + keptNamed nm es := by
        by_cases hx : tol6 < e.2 <;> simp [keptNamed, hn, hx]
      have h2 : entriesNamed nm (e :: es) = e :: entriesNamed nm es := by
        simp [entriesNamed, List.filter_cons, hn]
      rw [h1, h2, List.map_cons, List.sum_cons, ih]
    · have h1 : keptNamed nm (e :: es) = keptNamed nm es := by
        simp [keptNamed, hn]
      have h2 : entriesNamed nm (e :: es) = entriesNamed nm es := by
        simp [entriesNamed, List.filter_cons, hn]
      rw [h1, h2, ih]

theorem keptNamed_eq_of_entries {nm : String} {L L' : List Alloc}
    (h : entriesNamed nm L = entriesNamed nm L') :
    keptNamed nm L = keptNamed nm L' := by
  rw [keptNamed_eq_filter, keptNamed_eq_filter, h]

theorem entriesNamed_ltcScale {nm : String} (r : ℚ) :
    ∀ L : List Alloc,
      (∀ e ∈ L, e.1.name = nm → isDebtKind e.1.kind = false) →
      entriesNamed nm (L.map (ltcScale r)) = entriesNamed nm L
  | [], _ => rfl
  | e :: es, h => by
    have ih := entriesNamed_ltcScale r es (fun e' he' => h e' (.tail _ he'))
    have hname : (ltcScale r e).1.name = e.1.name := by
      by_cases hk : isDebtKind e.1.kind <;> simp [ltcScale, hk]
    by_cases hn : e.1.name = nm
    · have hk : isDebtKind e.1.kind = false := h e (.head _) hn
      have hsc : ltcScale r e = e := by simp [ltcScale, hk]
      rw [List.map_cons, hsc]
      simp only [entriesNamed, List.filter_cons, decide_eq_true hn, if_pos]
      simp only [entriesNamed] at ih
      rw [ih]
    · rw [List.map_cons]
      simp only [entriesNamed, List.filter_cons, hname,
        decide_eq_false hn]
      simp only [Bool.false_eq_true, if_false]
      exact ih

/-! ### The DSCR reduction loop -/

/-- Debt/mezz amounts clipped below at zero; an upper envelope for the
debt total that survives aggregation. -/
def posDebtSum (L : List Alloc) : ℚ :=
  (L.map (fun e => if isDebtKind e.1.kind then max e.2 0 else 0)).sum

/-- Annual debt service carried by a list of (option, amount) pairs. -/
def itemsService (items : List Alloc) : ℚ :=
  (items.map (fun e => e.2 * e.1.annual_cost)).sum

theorem reduce_entriesNamed_other {nm nm' : String} (hne : nm' ≠ nm)
    (a tp : ℚ) :
    ∀ L, entriesNamed nm (reduceFirstMatch nm' a tp L) = entriesNamed nm L
  | [] => rfl
  | e :: es => by
    have ih := reduce_entriesNamed_other hne a tp es
    by_cases hc : e.1.name = nm' ∧ |e.2 - a| < tol9
    · simp only [reduceFirstMatch, if_pos hc]
      have hn : ¬e.1.name = nm := fun h => hne (hc.1.symm.trans h)
      simp only [entriesNamed, List.filter_cons, decide_eq_false hn,
        Bool.false_eq_true, if_false]
    · simp only [reduceFirstMatch, if_neg hc]
      by_cases hn : e.1.name = nm
      · simp only [entriesNamed, List.filter_cons, decide_eq_true hn, if_pos]
        simp only [entriesNamed] at ih
        rw [ih]
      · simp only [entriesNamed, List.filter_cons, decide_eq_false hn,
          Bool.false_eq_true, if_false]
        exact ih

theorem reduce_fst_mem {nm : String} {a tp : ℚ} :
    ∀ {L : List Alloc} {e' : Alloc}, e' ∈ reduceFirstMatch nm a tp L →
      ∃ e ∈ L, e'.1 = e.1
  | [], _, h => absurd h (by simp [reduceFirstMatch])
  | e :: es, e', h => by
    by_cases hc : e.1.name = nm ∧ |e.2 - a| < tol9
    · simp only [reduceFirstMatch, if_pos hc, List.mem_cons] at h
      rcases h with rfl | h
      · exact ⟨e, .head _, rfl⟩
      · exact ⟨e', .tail _ h, rfl⟩
    · simp only [reduceFirstMatch, if_neg hc, List.mem_cons] at h
      rcases h with rfl | h
      · exact ⟨e', .head _, rfl⟩
      · obtain ⟨e₀, he₀, hfst⟩ := reduce_fst_mem h
        exact ⟨e₀, .tail _ he₀, hfst⟩

theorem reduce_posDebtSum {nm : String} {a tp : ℚ} (htp : 0 ≤ tp) :
    ∀ L : List Alloc, posDebtSum (reduceFirstMatch nm a tp L) ≤ posDebtSum L
  | [] => le_refl _
  | e :: es => by
    have ih := @reduce_posDebtSum nm a _ htp es
    by_cases hc : e.1.name = nm ∧ |e.2 - a| < tol9
    · simp only [reduceFirstMatch, if_pos hc, posDebtSum, List.map_cons,
        List.sum_cons]
      have hhead :
          (if isDebtKind e.1.kind then max (e.2 - tp) 0 else 0) ≤
            (if isDebtKind e.1.kind then max e.2 0 else 0) := by
        by_cases hk : isDebtKind e.1.kind
        · simp only [hk, if_pos]
          exact max_le_max (by linarith) le_rfl
        · simp [hk]
      linarith [hhead]
    · simp only [reduceFirstMatch, if_neg hc, posDebtSum, List.map_cons,
        List.sum_cons]
      simp only [posDebtSum] at ih
      linarith

theorem reduce_singleton {nm : String} {o : CapitalOption} {a : ℚ} (tp : ℚ) :
    ∀ (L : List Alloc), entriesNamed nm L = [(o, a)] →
      amountSum (reduceFirstMatch nm a tp L) = amountSum L - tp ∧
      totalAnnualDebt (reduceFirstMatch nm a tp L) =
        totalAnnualDebt L -
          (if isDebtKind o.kind && o.enforce_dscr then tp * o.annual_cost
           else 0) ∧
      entriesNamed nm (reduceFirstMatch nm a tp L) = [(o, a - tp)] ∧
      (∀ nm', nm' ≠ nm →
        entriesNamed nm' (reduceFirstMatch nm a tp L) = entriesNamed nm' L) ∧
      (∀ e' ∈ reduceFirstMatch nm a tp L, e' = (o, a - tp) ∨ e' ∈ L)
  | [], h => absurd h (by simp [entriesNamed])
  | e :: es, h => by
    by_cases hn : e.1.name = nm
    · have hsplit : e :: entriesNamed nm es = [(o, a)] := by
        simpa [entriesNamed, List.filter_cons, decide_eq_true hn] using h
      have he : e = (o, a) := (List.cons_eq_cons.mp hsplit).1
      have hes : entriesNamed nm es = [] := (List.cons_eq_cons.mp hsplit).2
      have honm : o.name = nm := by rw [he] at hn; exact hn
      have hcond : e.1.name = nm ∧ |e.2 - a| < tol9 := by
        refine ⟨hn, ?_⟩
        rw [he]
        simp only [sub_self, abs_zero]
        norm_num [tol9]
      have hred : reduceFirstMatch nm a tp (e :: es) = (o, a - tp) :: es := by
        simp only [reduceFirstMatch, if_pos hcond]
        rw [he]
      refine ⟨?_, ?_, ?_, ?_, ?_⟩
      · rw [hred, he]
        simp only [amountSum, List.map_cons, List.sum_cons]
        ring
      · rw [hred, he]
        simp only [totalAnnualDebt, List.map_cons, List.sum_cons]
        by_cases hk : isDebtKind o.kind && o.enforce_dscr <;> simp [hk] <;> ring
      · rw [hred]
        simp only [entriesNamed, List.filter_cons, decide_eq_true honm,
          if_pos]
        rw [show (List.filter (fun e => decide (e.1.name = nm)) es) = [] from hes]
      · intro nm' hne
        rw [hred]
        have hn' : ¬o.name = nm' := fun hh => hne (hh.symm.trans honm)
        have hn'' : ¬e.1.name = nm' := by rw [he]; exact hn'
        simp only [entriesNamed, List.filter_cons, decide_eq_false hn',
          decide_eq_false hn'', Bool.false_eq_true, if_false]
      · intro e' he'
        rw [hred] at he'
        rcases List.mem_cons.mp he' with rfl | hmem
        · exact .inl rfl
        · exact .inr (.tail _ hmem)
    · have hes : entriesNamed nm es = [(o, a)] := by
        simpa [entriesNamed, List.filter_cons, decide_eq_false hn] using h
      obtain ⟨ih1, ih2, ih3, ih4, ih5⟩ := reduce_singleton tp es hes
      have hcond : ¬(e.1.name = nm ∧ |e.2 - a| < tol9) := fun hc => hn hc.1
      have hred : reduceFirstMatch nm a tp (e :: es) =
          e :: reduceFirstMatch nm a tp es := by
        simp only [reduceFirstMatch, if_neg hcond]
      refine ⟨?_, ?_, ?_, ?_, ?_⟩
      · rw [hred]
        simp only [amountSum, List.map_cons, List.sum_cons] at *
        linarith
      · rw [hred]
        simp only [totalAnnualDebt, List.map_cons, List.sum_cons] at *
        linarith
      · rw [hred]
        simpa [entriesNamed, List.filter_cons, decide_eq_false hn] using ih3
      · intro nm' hne
        rw [hred]
        by_cases hn' : e.1.name = nm' <;>
          simp only [entriesNamed, List.filter_cons, decide_eq_true,
            decide_eq_false, hn', if_pos, Bool.false_eq_true, if_false] <;>
          [skip; skip] <;> first
            | (rw [show List.filter (fun e => decide (e.1.name = nm'))
                  (reduceFirstMatch nm a tp es) =
                  List.filter (fun e => decide (e.1.name = nm')) es from ih4 nm' hne])
            | exact ih4 nm' hne
      · intro e' he'
        rw [hred] at he'
        rcases List.mem_cons.mp he' with rfl | hmem
        · exact .inr (.head _)
        · rcases ih5 e' hmem with h5 | h5
          · exact .inl h5
          · exact .inr (.tail _ h5)

theorem dscrLoop_of_le (items : List Alloc) (st : AllocState) (delta : ℚ)
    (h : delta ≤ tol6) : dscrLoop items st delta = (st, delta) := by
  cases items with
  | nil => rfl
  | cons x rest =>
    obtain ⟨o, a⟩ := x
    simp [dscrLoop, h]

theorem dscrLoop_entriesNamed_other (nm : String) :
    ∀ (items : List Alloc) (st : AllocState) (delta : ℚ),
      (∀ x ∈ items, x.1.name ≠ nm) →
      entriesNamed nm (dscrLoop items st delta).1.1 = entriesNamed nm st.1
  | [], _, _, _ => rfl
  | (o, a) :: rest, st, delta, h => by
    by_cases hd : delta ≤ tol6
    · rw [dscrLoop_of_le _ _ _ hd]
    · have hdl : dscrLoop ((o, a) :: rest) st delta =
          dscrLoop rest
            (reduceFirstMatch o.name a
              (min (a * o.annual_cost) delta / o.annual_cost) st.1,
             st.2 + min (a * o.annual_cost) delta / o.annual_cost)
            (delta - min (a * o.annual_cost) delta) := by
        simp [dscrLoop, hd]
      rw [hdl]
      have hothers := dscrLoop_entriesNamed_other nm rest
        (reduceFirstMatch o.name a
          (min (a * o.annual_cost) delta / o.annual_cost) st.1,
         st.2 + min (a * o.annual_cost) delta / o.annual_cost)
        (delta - min (a * o.annual_cost) delta)
        (fun x hx => h x (.tail _ hx))
      rw [hothers]
      exact reduce_entriesNamed_other (h (o, a) (.head _)) a _ st.1

theorem dscrLoop_posDebtSum :
    ∀ (items : List Alloc) (st : AllocState) (delta : ℚ),
      (∀ x ∈ items, 0 ≤ x.2) →
      posDebtSum (dscrLoop items st delta).1.1 ≤ posDebtSum st.1
  | [], _, _, _ => le_refl _
  | (o, a) :: rest, st, delta, h => by
    by_cases hd : delta ≤ tol6
    · rw [dscrLoop_of_le _ _ _ hd]
    · have hdl : dscrLoop ((o, a) :: rest) st delta =
          dscrLoop rest
            (reduceFirstMatch o.name a
              (min (a * o.annual_cost) delta / o.annual_cost) st.1,
             st.2 + min (a * o.annual_cost) delta / o.annual_cost)
            (delta - min (a * o.annual_cost) delta) := by
        simp [dscrLoop, hd]
      rw [hdl]
      have ha : 0 ≤ a := h (o, a) (.head _)
      have hdpos : 0 < delta := by
        have : (0 : ℚ) < tol6 := by norm_num [tol6]
        linarith [lt_of_not_le hd]
      have htp : 0 ≤ min (a * o.annual_cost) delta / o.annual_cost := by
        rcases lt_trichotomy o.annual_cost 0 with hc | hc | hc
        · have hmin : min (a * o.annual_cost) delta = a * o.annual_cost := by
            refine min_eq_left ?_
            have : a * o.annual_cost ≤ 0 :=
              mul_nonpos_of_nonneg_of_nonpos ha hc.le
            linarith
          rw [hmin, mul_div_assoc, div_self (ne_of_lt hc)]
          simpa using ha
        · simp [hc]
        · refine div_nonneg ?_ hc.le
          exact le_min (mul_nonneg ha hc.le) hdpos.le
      refine le_trans
        (dscrLoop_posDebtSum rest _ _ (fun x hx => h x (.tail _ hx))) ?_
      exact reduce_posDebtSum htp st.1

theorem dscrLoop_main :
    ∀ (items : List Alloc) (st : AllocState) (delta : ℚ),
      (∀ x ∈ items,
        entriesNamed x.1.name st.1 = [x] ∧ isDebtKind x.1.kind = true ∧
          x.1.enforce_dscr = true ∧ 0 < x.1.annual_cost ∧ 0 ≤ x.2) →
      items.Pairwise (fun x y => x.1.name ≠ y.1.name) →
      amountSum (dscrLoop items st delta).1.1 + (dscrLoop items st delta).1.2 =
          amountSum st.1 + st.2 ∧
        totalAnnualDebt (dscrLoop items st delta).1.1 =
          totalAnnualDebt st.1 - (delta - (dscrLoop items st delta).2) ∧
        ((dscrLoop items st delta).2 ≤ tol6 ∨
          delta - (dscrLoop items st delta).2 = itemsService items) ∧
        (DebtNonneg st.1 → DebtNonneg (dscrLoop items st delta).1.1)
  | [], st, delta, _, _ =>
    ⟨rfl, by simp only [dscrLoop]; ring,
      .inr (by simp [dscrLoop, itemsService]), fun h => h⟩
  | (o, a) :: rest, st, delta, hx, hpw => by
    by_cases hd : delta ≤ tol6
    · rw [dscrLoop_of_le _ _ _ hd]
      exact ⟨rfl, by ring, .inl hd, fun h => h⟩
    · obtain ⟨hsing, hkind, henf, hcpos, ha⟩ := hx (o, a) (.head _)
      have htol : (0 : ℚ) < tol6 := by norm_num [tol6]
      have hdpos : 0 < delta := by linarith [lt_of_not_le hd]
      set take := min (a * o.annual_cost) delta with htake
      set tp := take / o.annual_cost with htp
      have hdl : dscrLoop ((o, a) :: rest) st delta =
          dscrLoop rest (reduceFirstMatch o.name a tp st.1, st.2 + tp)
            (delta - take) := by
        simp [dscrLoop, hd]
      have htake0 : 0 ≤ take :=
        le_min (mul_nonneg ha hcpos.le) hdpos.le
      have htp0 : 0 ≤ tp := div_nonneg htake0 hcpos.le
      have htpa : tp ≤ a := by
        rw [htp, div_le_iff hcpos]
        calc take ≤ a * o.annual_cost := min_le_left _ _
        _ = a * o.annual_cost := rfl
      have htpc : tp * o.annual_cost = take :=
        div_mul_cancel₀ take (ne_of_gt hcpos)
      obtain ⟨hsum, hserv, _, hothers, hmem⟩ :=
        @reduce_singleton o.name o a tp st.1 hsing
      have hpw' := List.pairwise_cons.mp hpw
      have hrest : ∀ x ∈ rest,
          entriesNamed x.1.name
            (reduceFirstMatch o.name a tp st.1, st.2 + tp).1 = [x] ∧
            isDebtKind x.1.kind = true ∧ x.1.enforce_dscr = true ∧
            0 < x.1.annual_cost ∧ 0 ≤ x.2 := by
        intro x hxr
        obtain ⟨h1, h2, h3, h4, h5⟩ := hx x (.tail _ hxr)
        refine ⟨?_, h2, h3, h4, h5⟩
        rw [hothers x.1.name (fun hh => absurd hh.symm (hpw'.1 x hxr))]
        exact h1
      obtain ⟨ih1, ih2, ih3, ih4⟩ :=
        dscrLoop_main rest (reduceFirstMatch o.name a tp st.1, st.2 + tp)
          (delta - take) hrest hpw'.2
      rw [hdl]
      refine ⟨?_, ?_, ?_, ?_⟩
      · rw [ih1]
        simp only [hsum]
        ring
      · rw [ih2, hserv, hkind, henf]
        simp only [Bool.and_self, if_pos, htpc]
        ring
      · rcases ih3 with h3 | h3
        · exact .inl h3
        · by_cases hmin : a * o.annual_cost ≤ delta
          · refine .inr ?_
            rw [show take = a * o.annual_cost from min_eq_left hmin] at h3 ⊢
            have hcons : itemsService ((o, a) :: rest) =
                a * o.annual_cost + itemsService rest := by
              simp [itemsService]
            rw [hcons]
            linarith
          · have hteq : take = delta := min_eq_right (le_of_lt (lt_of_not_le hmin))
            refine .inl ?_
            rw [hteq]
            simp only [sub_self]
            rw [dscrLoop_of_le _ _ _ (by norm_num [tol6])]
            norm_num [tol6]
      · intro hnn
        refine ih4 ?_
        intro e' he' hk'
        rcases hmem e' he' with rfl | h5
        · simpa using sub_nonneg.mpr htpa
        · exact hnn e' h5 hk'

/-! ### Aggregation lemmas -/

/-- Aggregation key of a ledger entry, src/main.py line 155. -/
def keyOf (e : Alloc) : AggKey := (e.1.name, e.1.kind, e.1.annual_cost)

/-- Weighted amount total of an aggregate list. -/
def aggWSum (w : AggKey → ℚ) (agg : List (AggKey × ℚ)) : ℚ :=
  (agg.map (fun x => x.2 * w x.1)).sum

/-- Weighted amount total of the ledger entries that survive the
aggregation cut. -/
def ledgerWSum (w : AggKey → ℚ) (L : List Alloc) : ℚ :=
  (L.map (fun e => if e.2 ≤ tol6 then 0 else e.2 * w (keyOf e))).sum

theorem aggAdd_wsum (w : AggKey → ℚ) (k : AggKey) (a : ℚ) :
    ∀ agg, aggWSum w (aggAdd k a agg) = aggWSum w agg + a * w k
  | [] => by simp [aggWSum, aggAdd]
  | x :: xs => by
    by_cases hk : x.1 = k
    · simp only [aggAdd, hk, if_true, aggWSum, List.map_cons, List.sum_cons]
      ring
    · simp only [aggAdd, if_neg hk, aggWSum, List.map_cons, List.sum_cons]
      have ih := aggAdd_wsum w k a xs
      simp only [aggWSum] at ih
      rw [ih]
      ring

theorem aggregate_wsum (w : AggKey → ℚ) (L : List Alloc) :
    aggWSum w (aggregate L) = ledgerWSum w L := by
  suffices h : ∀ (L : List Alloc) (acc : List (AggKey × ℚ)),
      aggWSum w (L.foldl
        (fun acc e =>
          if e.2 ≤ tol6 then acc
          else aggAdd (e.1.name, e.1.kind, e.1.annual_cost) e.2 acc) acc) =
        aggWSum w acc + ledgerWSum w L by
    have := h L []
    simpa [aggregate, aggWSum, ledgerWSum] using this
  intro L
  induction L with
  | nil => intro acc; simp [ledgerWSum]
  | cons e es ih =>
    intro acc
    rw [List.foldl_cons]
    by_cases he : e.2 ≤ tol6
    · rw [if_pos he, ih]
      simp only [ledgerWSum, List.map_cons, List.sum_cons, if_pos he]
      ring
    · rw [if_neg he, ih, aggAdd_wsum]
      simp only [ledgerWSum, List.map_cons, List.sum_cons, if_neg he, keyOf]
      ring

theorem buildSlices_wsum (tdc : ℚ) (f : StackSlice → ℚ) (w : AggKey → ℚ)
    (hfw : ∀ (k : AggKey) (amt : ℚ),
      f ⟨k.1, k.2.1, amt, amt / tdc, k.2.2⟩ = amt * w k) :
    ∀ agg, ((buildSlices tdc agg).map f).sum = aggWSum w agg
  | [] => by simp [buildSlices, aggWSum]
  | x :: xs => by
    simp only [buildSlices, List.map_cons, List.sum_cons, aggWSum]
    have ih := buildSlices_wsum tdc f w hfw xs
    simp only [buildSlices, aggWSum] at ih
    rw [ih, hfw x.1 x.2]

theorem enfFlag_eq {opts : List CapitalOption} (hdn : distinctNames opts)
    {o : CapitalOption} (ho : o ∈ opts) :
    enfFlag opts o.name = o.enforce_dscr := by
  unfold enfFlag
  rcases hfind : opts.find? (fun x => x.name == o.name) with _ | o'
  · exfalso
    have := List.find?_eq_none.mp hfind o ho
    simp at this
  · have hmem : o' ∈ opts := List.mem_of_find?_eq_some hfind
    have hpred := List.find?_some hfind
    have hname : o'.name = o.name := by simpa using hpred
    rw [hfind]
    show o'.enforce_dscr = o.enforce_dscr
    rw [distinct_name_inj hdn hmem ho hname]

/-! ### LTC correction lemmas -/

theorem ltcScale_fst (r : ℚ) (e : Alloc) : (ltcScale r e).1 = e.1 := by
  by_cases hk : isDebtKind e.1.kind <;> simp [ltcScale, hk]

theorem ltcFreed_eq (r : ℚ) :
    ∀ L : List Alloc, ltcFreed r L = totalDebtAmount L * r
  | [] => by simp [ltcFreed, totalDebtAmount]
  | e :: es => by
    have ih := ltcFreed_eq r es
    simp only [ltcFreed, totalDebtAmount, List.map_cons, List.sum_cons] at ih ⊢
    by_cases hk : isDebtKind e.1.kind <;>
      simp only [hk, if_true, Bool.false_eq_true, if_false] <;> rw [ih] <;> ring

theorem posDebt_eq_totalDebt :
    ∀ {L : List Alloc}, NonnegLedger L → posDebtSum L = totalDebtAmount L
  | [], _ => by simp [posDebtSum, totalDebtAmount]
  | e :: es, h => by
    have h0 := h e (.head _)
    have ih := posDebt_eq_totalDebt (fun e' he' => h e' (.tail _ he'))
    simp only [posDebtSum, totalDebtAmount, List.map_cons, List.sum_cons]
      at ih ⊢
    rw [ih, max_eq_left h0]

theorem scaled_posDebt {r : ℚ} (hr : r ≤ 1) :
    ∀ {L : List Alloc}, NonnegLedger L →
      posDebtSum (L.map (ltcScale r)) = totalDebtAmount L * (1 - r)
  | [], _ => by simp [posDebtSum, totalDebtAmount]
  | e :: es, h => by
    have h0 := h e (.head _)
    have ih := scaled_posDebt hr (fun e' he' => h e' (.tail _ he'))
    by_cases hk : isDebtKind e.1.kind
    · have hsc : ltcScale r e = (e.1, e.2 - e.2 * r) := by simp [ltcScale, hk]
      have hnn : 0 ≤ e.2 - e.2 * r := by nlinarith
      simp only [List.map_cons, hsc, posDebtSum, totalDebtAmount,
        List.sum_cons, hk, if_true]
      simp only [posDebtSum] at ih
      rw [ih, max_eq_left hnn]
      simp only [totalDebtAmount]
      ring
    · have hsc : ltcScale r e = e := by simp [ltcScale, hk]
      simp only [List.map_cons, hsc, posDebtSum, totalDebtAmount,
        List.sum_cons, hk, Bool.false_eq_true, if_false]
      simp only [posDebtSum] at ih
      rw [ih]
      simp only [totalDebtAmount]
      ring

theorem scaled_service_le {r : ℚ} (h0 : 0 ≤ r) :
    ∀ {L : List Alloc}, NonnegLedger L →
      (∀ e ∈ L, 0 ≤ e.1.annual_cost) →
      totalAnnualDebt (L.map (ltcScale r)) ≤ totalAnnualDebt L
  | [], _, _ => le_refl _
  | e :: es, h, hc => by
    have he0 := h e (.head _)
    have hce := hc e (.head _)
    have ih := scaled_service_le h0 (fun e' he' => h e' (.tail _ he'))
      (fun e' he' => hc e' (.tail _ he'))
    by_cases hk : isDebtKind e.1.kind
    · have hsc : ltcScale r e = (e.1, e.2 - e.2 * r) := by simp [ltcScale, hk]
      simp only [List.map_cons, hsc, totalAnnualDebt, List.sum_cons]
      simp only [totalAnnualDebt] at ih
      by_cases hen : e.1.enforce_dscr
      · have hprod : 0 ≤ e.2 * r * e.1.annual_cost :=
          mul_nonneg (mul_nonneg he0 h0) hce
        simp only [hk, hen, Bool.and_self, if_pos, Bool.true_and, if_true]
        nlinarith [ih, hprod]
      · simp only [hk, hen, Bool.and_false, Bool.false_eq_true, if_false,
          Bool.true_and]
        linarith
    · have hsc : ltcScale r e = e := by simp [ltcScale, hk]
      simp only [List.map_cons, hsc, totalAnnualDebt, List.sum_cons]
      simp only [totalAnnualDebt] at ih
      linarith

theorem scaled_debtNonneg {r : ℚ} (hr : r ≤ 1) {L : List Alloc}
    (hnn : NonnegLedger L) : DebtNonneg (L.map (ltcScale r)) := by
  intro e' he' _
  obtain ⟨e, he, rfl⟩ := List.mem_map.mp he'
  have h0 := hnn e he
  by_cases hk : isDebtKind e.1.kind
  · simp only [ltcScale, hk, if_pos]
    nlinarith
  · simp only [ltcScale, hk, Bool.false_eq_true, if_false]
    exact h0

theorem totalAnnualDebt_append_nondebt (L : List Alloc) (o : CapitalOption)
    (x : ℚ) (hk : isDebtKind o.kind = false) :
    totalAnnualDebt (L ++ [(o, x)]) = totalAnnualDebt L := by
  simp [totalAnnualDebt, hk]

theorem posDebt_append_nondebt (L : List Alloc) (o : CapitalOption) (x : ℚ)
    (hk : isDebtKind o.kind = false) :
    posDebtSum (L ++ [(o, x)]) = posDebtSum L := by
  simp [posDebtSum, hk]

theorem debtNonneg_append_nondebt {L : List Alloc} (o : CapitalOption) (x : ℚ)
    (hk : isDebtKind o.kind = false) (h : DebtNonneg L) :
    DebtNonneg (L ++ [(o, x)]) := by
  intro e he hke
  rcases List.mem_append.mp he with h1 | h1
  · exact h e h1 hke
  · simp only [List.mem_singleton] at h1
    rw [h1] at hke
    simp only at hke
    rw [hke] at hk
    cases hk

theorem namedCount_map_ltcScale (nm : String) (r : ℚ) :
    ∀ L : List Alloc, namedCount nm (L.map (ltcScale r)) = namedCount nm L
  | [] => rfl
  | e :: es => by
    have ih := namedCount_map_ltcScale nm r es
    have hname : (ltcScale r e).1.name = e.1.name := by rw [ltcScale_fst]
    simp only [namedCount, entriesNamed] at ih
    simp only [namedCount, entriesNamed, List.map_cons, List.filter_cons,
      hname]
    by_cases hn : e.1.name = nm
    · rw [decide_eq_true hn]
      simp only [if_pos, List.length_cons]
      rw [ih]
    · rw [decide_eq_false hn]
      simp only [Bool.false_eq_true, if_false]
      exact ih

/-! ### DSCR item-list lemmas -/

theorem dscrItems_mem {L : List Alloc} {x : Alloc} (hx : x ∈ dscrItems L) :
    x ∈ L ∧ isDebtKind x.1.kind = true ∧ x.1.enforce_dscr = true := by
  unfold dscrItems at hx
  rw [stableSort_mem] at hx
  have hm := List.mem_filter.mp hx
  have hb := hm.2
  rw [Bool.and_eq_true] at hb
  exact ⟨hm.1, hb.1, hb.2⟩

theorem filter_filter_length_le (p q : α → Bool) :
    ∀ l : List α, ((l.filter q).filter p).length ≤ (l.filter p).length
  | [] => le_refl _
  | x :: xs => by
    have ih := filter_filter_length_le p q xs
    by_cases hq : q x
    · rw [List.filter_cons_of_pos hq]
      by_cases hp : p x
      · rw [List.filter_cons_of_pos hp, List.filter_cons_of_pos hp]
        simp only [List.length_cons]
        omega
      · rw [List.filter_cons_of_neg hp, List.filter_cons_of_neg hp]
        exact ih
    · rw [List.filter_cons_of_neg hq]
      by_cases hp : p x
      · rw [List.filter_cons_of_pos hp]
        simp only [List.length_cons]
        omega
      · rw [List.filter_cons_of_neg hp]
        exact ih

theorem namedCount_items_le (nm : String) (L : List Alloc) :
    namedCount nm (dscrItems L) ≤ namedCount nm L := by
  unfold dscrItems namedCount entriesNamed
  rw [stableSort_filter_length]
  exact filter_filter_length_le _ _ L

theorem entries_singleton_of_mem {L : List Alloc} {x : Alloc} (hx : x ∈ L)
    (hc : namedCount x.1.name L ≤ 1) : entriesNamed x.1.name L = [x] := by
  have hmem : x ∈ entriesNamed x.1.name L :=
    List.mem_filter.mpr ⟨hx, by simp⟩
  simp only [namedCount] at hc
  have hpos : 0 < (entriesNamed x.1.name L).length :=
    List.length_pos.mpr (List.ne_nil_of_mem hmem)
  have hlen1 : (entriesNamed x.1.name L).length = 1 := by omega
  obtain ⟨b, hb⟩ := List.length_eq_one.mp hlen1
  rw [hb] at hmem ⊢
  simp only [List.mem_singleton] at hmem
  rw [hmem]

theorem pairwise_names_of_count :
    ∀ l : List Alloc,
      (∀ nm, (l.filter (fun e => decide (e.1.name = nm))).length ≤ 1) →
      l.Pairwise (fun x y => x.1.name ≠ y.1.name)
  | [], _ => .nil
  | x :: xs, h => by
    refine List.pairwise_cons.mpr ⟨?_, ?_⟩
    · intro y hy heq
      have h1 := h x.1.name
      have hymem : y ∈ xs.filter (fun e => decide (e.1.name = x.1.name)) :=
        List.mem_filter.mpr ⟨hy, by simp [heq.symm]⟩
      have hylen : 0 < (xs.filter (fun e => decide (e.1.name = x.1.name))).length :=
        List.length_pos.mpr (List.ne_nil_of_mem hymem)
      have hx : ((x :: xs).filter (fun e => decide (e.1.name = x.1.name))).length =
          (xs.filter (fun e => decide (e.1.name = x.1.name))).length + 1 := by
        simp [List.filter_cons]
      omega
    · refine pairwise_names_of_count xs (fun nm => ?_)
      have h1 := h nm
      by_cases hn : x.1.name = nm
      · have hx : ((x :: xs).filter (fun e => decide (e.1.name = nm))).length =
            (xs.filter (fun e => decide (e.1.name = nm))).length + 1 := by
          simp [List.filter_cons, hn]
        omega
      · have hx : ((x :: xs).filter (fun e => decide (e.1.name = nm))).length =
            (xs.filter (fun e => decide (e.1.name = nm))).length := by
          simp [List.filter_cons, hn]
        omega

theorem filter_service :
    ∀ L : List Alloc,
      itemsService (L.filter (fun e => isDebtKind e.1.kind && e.1.enforce_dscr)) =
        totalAnnualDebt L
  | [] => rfl
  | e :: es => by
    have ih := filter_service es
    by_cases hk : isDebtKind e.1.kind && e.1.enforce_dscr <;>
      simp only [List.filter_cons, hk, if_true, Bool.false_eq_true, if_false,
        itemsService, totalAnnualDebt, List.map_cons, List.sum_cons] <;>
      simp only [itemsService, totalAnnualDebt] at ih <;> rw [ih]
    simp

theorem itemsService_dscrItems (L : List Alloc) :
    itemsService (dscrItems L) = totalAnnualDebt L := by
  unfold dscrItems itemsService
  rw [stableSort_map_sum]
  have := filter_service L
  simpa [itemsService] using this

theorem totalAnnualDebt_nonneg {L : List Alloc} (hnn : DebtNonneg L)
    (hc : ∀ e ∈ L, 0 ≤ e.1.annual_cost) : 0 ≤ totalAnnualDebt L := by
  induction L with
  | nil => simp [totalAnnualDebt]
  | cons e es ih =>
    have ih' := ih (fun e' he' => hnn e' (.tail _ he'))
      (fun e' he' => hc e' (.tail _ he'))
    simp only [totalAnnualDebt, List.map_cons, List.sum_cons]
    simp only [totalAnnualDebt] at ih'
    by_cases hk : isDebtKind e.1.kind && e.1.enforce_dscr
    · rw [if_pos hk]
      have hke : isDebtKind e.1.kind = true ∧ e.1.enforce_dscr = true := by
        rw [Bool.and_eq_true] at hk
        exact hk
      have := mul_nonneg (hnn e (.head _) hke.1) (hc e (.head _))
      linarith
    · rw [if_neg hk]
      linarith

theorem dscrLoop_closed {opts : List CapitalOption} :
    ∀ (items : List Alloc) (st : AllocState) (delta : ℚ),
      OptsClosed opts st.1 → OptsClosed opts (dscrLoop items st delta).1.1
  | [], _, _, h => h
  | (o, a) :: rest, st, delta, h => by
    by_cases hd : delta ≤ tol6
    · rw [dscrLoop_of_le _ _ _ hd]
      exact h
    · have hdl : dscrLoop ((o, a) :: rest) st delta =
          dscrLoop rest
            (reduceFirstMatch o.name a
              (min (a * o.annual_cost) delta / o.annual_cost) st.1,
             st.2 + min (a * o.annual_cost) delta / o.annual_cost)
            (delta - min (a * o.annual_cost) delta) := by
        simp [dscrLoop, hd]
      rw [hdl]
      refine dscrLoop_closed rest _ _ ?_
      intro e' he'
      obtain ⟨e, he, hfst⟩ := reduce_fst_mem he'
      rw [hfst]
      exact h e he

theorem ltc_preserve (p : Project) (opts : List CapitalOption)
    (st4 st5 : AllocState) (h5 : ltcCorrection p (findEquity opts) st4 = .ok st5)
    (hnn4 : NonnegLedger st4.1) (hcl4 : OptsClosed opts st4.1)
    (hml : ∀ m, p.max_ltc = some m → 0 ≤ m) (htdc : 0 ≤ p.tdc)
    (hcost : ∀ o ∈ opts, 0 ≤ o.annual_cost) :
    DebtNonneg st5.1 ∧ totalAnnualDebt st5.1 ≤ totalAnnualDebt st4.1 ∧
      OptsClosed opts st5.1 ∧
      (∀ nm, (∀ ce, findEquity opts = some ce → ce.name ≠ nm) →
        namedCount nm st5.1 ≤ namedCount nm st4.1) := by
  have hcosts : ∀ e ∈ st4.1, 0 ≤ e.1.annual_cost :=
    fun e he => hcost e.1 (hcl4 e he)
  rcases ltcCorrection_ok _ _ _ _ h5 with ⟨hc, _⟩ | ⟨ml, ce, ratio, rem, add,
    hmlml, hce, htrig, hratio, hrem, hadd, hguard, hc⟩
  · rw [hc]
    exact ⟨fun e he _ => hnn4 e he, le_refl _, hcl4, fun nm _ => le_refl _⟩
  · have hml0 : 0 ≤ ml := hml ml hmlml
    have hcap0 : 0 ≤ ml * p.tdc := mul_nonneg hml0 htdc
    have htd0 : 0 < totalDebtAmount st4.1 := lt_of_le_of_lt hcap0 htrig
    have hden : 0 < max (totalDebtAmount st4.1) tol9 :=
      lt_of_lt_of_le htd0 (le_max_left _ _)
    have h0r : 0 ≤ ratio := by
      rw [hratio]
      exact div_nonneg (by linarith) hden.le
    have h1r : ratio ≤ 1 := by
      rw [hratio, div_le_one hden]
      have := le_max_left (totalDebtAmount st4.1) tol9
      linarith
    have hcek : isDebtKind ce.kind = false := by
      rw [findEquity_kind hce]
      rfl
    rw [hc]
    refine ⟨?_, ?_, ?_, ?_⟩
    · exact debtNonneg_append_nondebt ce add hcek
        (scaled_debtNonneg h1r hnn4)
    · rw [totalAnnualDebt_append_nondebt _ _ _ hcek]
      exact scaled_service_le h0r hnn4 hcosts
    · intro e' he'
      rcases List.mem_append.mp he' with h1 | h1
      · obtain ⟨e, he, rfl⟩ := List.mem_map.mp h1
        rw [ltcScale_fst]
        exact hcl4 e he
      · simp only [List.mem_singleton] at h1
        rw [h1]
        exact findEquity_mem hce
    · intro nm hne
      show namedCount nm (st4.1.map (ltcScale ratio) ++ [(ce, add)]) ≤
        namedCount nm st4.1
      rw [namedCount_append_single, if_neg (hne ce hce),
        namedCount_map_ltcScale]
      omega

/-! ### End-to-end pipeline analysis -/

theorem core_analysis (p : Project) (opts : List CapitalOption)
    (hdn : distinctNames opts) (htdc : 0 < p.tdc)
    (hcost : ∀ o ∈ opts, 0 < o.annual_cost)
    (hms : ∀ o ∈ opts, isDebtKind o.kind = true → o.enforce_dscr = true →
      o.min_share ≤ 0)
    (hml : ∀ m, p.max_ltc = some m → 0 ≤ m)
    (hnoi : 0 ≤ p.noi) (hmd : 0 < p.min_dscr)
    (L : List Alloc) (r : ℚ) (hok : optimize_core p opts = .ok (L, r)) :
    amountSum L + r = p.tdc ∧
      totalAnnualDebt L ≤ p.noi / p.min_dscr + tol6 ∧
      DebtNonneg L ∧ OptsClosed opts L := by
  unfold optimize_core at hok
  rcases h4 : stage4 p opts with e4 | st4
  · rw [h4] at hok
    exact absurd hok (by simp)
  rw [h4] at hok
  simp only at hok
  rcases h5 : ltcCorrection p (findEquity opts) st4 with e5 | st5
  · rw [h5] at hok
    exact absurd hok (by simp)
  rw [h5] at hok
  simp only at hok
  have hsum4 := stage4_sum p opts st4 h4
  have hnn4 := stage4_nonneg p opts st4 h4
  have hcl4 := stage4_closed p opts st4 h4
  have htol : (0 : ℚ) < tol6 := by norm_num [tol6]
  have hcene : ∀ o ∈ opts, isDebtKind o.kind = true →
      ∀ ce, findEquity opts = some ce → ce.name ≠ o.name := by
    intro o ho hk ce hce heq
    have hco : ce = o := distinct_name_inj hdn (findEquity_mem hce) ho heq
    have hek := findEquity_kind hce
    rw [hco] at hek
    rw [hek] at hk
    cases hk
  have hcount4 : ∀ o ∈ opts, isDebtKind o.kind = true → o.enforce_dscr = true →
      namedCount o.name st4.1 ≤ 1 := by
    intro o ho hk he
    have h1 : namedCount o.name (stage1 p opts).1 = 0 := by
      refine stage1_namedCount_zero p opts o.name (fun o' ho' hn => ?_)
      rw [distinct_name_inj hdn ho' ho hn]
      nlinarith [hms o ho hk he]
    have h2 : namedCount o.name (stage2 p opts).1 ≤ 1 := by
      have hgrow := pass2_foldl_namedCount p.tdc o.name (sortOptions opts)
        (stage1 p opts)
      have hsort :
          ((sortOptions opts).filter (fun x => decide (x.name = o.name))).length =
            (opts.filter (fun x => decide (x.name = o.name))).length := by
        unfold sortOptions
        exact stableSort_filter_length _ _ _
      have hone := distinct_filter_le_one hdn o.name
      unfold stage2
      omega
    have h3 : namedCount o.name (stage3 p opts).1 ≤ 1 := by
      rcases equityFloor_cases p (findEquity opts) (stage2 p opts) with hc |
        ⟨ce, x, hce, _, hc⟩ <;> (unfold stage3; rw [hc])
      · exact h2
      · rw [namedCount_append_single, if_neg (hcene o ho hk ce hce)]
        omega
    rcases forceFill_ok _ _ _ _ h4 with hc | ⟨ce, x, hce, _, hc⟩ <;> rw [hc]
    · exact h3
    · rw [namedCount_append_single, if_neg (hcene o ho hk ce hce)]
      omega
  obtain ⟨hnn5, hserv5, hcl5, hcount5p⟩ := ltc_preserve p opts st4 st5 h5 hnn4
    hcl4 hml htdc.le (fun o ho => (hcost o ho).le)
  have hcount5 : ∀ o ∈ opts, isDebtKind o.kind = true → o.enforce_dscr = true →
      namedCount o.name st5.1 ≤ 1 := fun o ho hk he =>
    le_trans (hcount5p o.name (fun ce hce => hcene o ho hk ce hce))
      (hcount4 o ho hk he)
  have hsum5 : amountSum st5.1 + st5.2 = p.tdc := by
    rw [ltc_sum p _ st4 st5 h5]
    exact hsum4
  have hitems : ∀ x ∈ dscrItems st5.1,
      entriesNamed x.1.name st5.1 = [x] ∧ isDebtKind x.1.kind = true ∧
        x.1.enforce_dscr = true ∧ 0 < x.1.annual_cost ∧ 0 ≤ x.2 := by
    intro x hx
    obtain ⟨hmem, hk, he⟩ := dscrItems_mem hx
    have hxo : x.1 ∈ opts := hcl5 x hmem
    exact ⟨entries_singleton_of_mem hmem (hcount5 x.1 hxo hk he), hk, he,
      hcost x.1 hxo, hnn5 x hmem hk⟩
  have hpw : (dscrItems st5.1).Pairwise (fun x y => x.1.name ≠ y.1.name) := by
    refine pairwise_names_of_count _ (fun nm => ?_)
    rcases hfe : (dscrItems st5.1).filter (fun e => decide (e.1.name = nm))
      with _ | ⟨x, xs⟩
    · simp [hfe]
    · have hx : x ∈ (dscrItems st5.1).filter
          (fun e => decide (e.1.name = nm)) := by
        rw [hfe]
        exact .head _
      have hxm := List.mem_filter.mp hx
      have hxn : x.1.name = nm := by simpa using hxm.2
      obtain ⟨hmem, hk, he⟩ := dscrItems_mem hxm.1
      have hxo : x.1 ∈ opts := hcl5 x hmem
      have hb := hcount5 x.1 hxo hk he
      have hc1 := namedCount_items_le x.1.name st5.1
      rw [hxn] at hb hc1
      have heq : ((dscrItems st5.1).filter
          (fun e => decide (e.1.name = nm))).length =
          namedCount nm (dscrItems st5.1) := rfl
      omega
  rcases dscrCorrection_ok p (findEquity opts) (totalAnnualDebt st4.1) st5
    (L, r) hok with ⟨hlt, hst⟩ | ⟨ce, res, add, hlt, hce, hres, hadd, hguard, hst⟩
  · have hL : L = st5.1 := congrArg Prod.fst hst
    have hr : r = st5.2 := congrArg Prod.snd hst
    subst hL
    subst hr
    refine ⟨hsum5, ?_, hnn5, hcl5⟩
    have htad0 : 0 ≤ totalAnnualDebt st4.1 :=
      totalAnnualDebt_nonneg (fun e he _ => hnn4 e he)
        (fun e he => (hcost e.1 (hcl4 e he)).le)
    have hreq0 : 0 ≤ p.noi / p.min_dscr := div_nonneg hnoi hmd.le
    by_cases hz : totalAnnualDebt st4.1 = 0
    · rw [hz] at hserv5
      linarith
    · have hlt' : ¬(p.noi / totalAnnualDebt st4.1 < p.min_dscr) := by
        unfold dscrLtQ compute_dscr at hlt
        rw [if_neg hz] at hlt
        simpa using hlt
      have htpos : 0 < totalAnnualDebt st4.1 :=
        lt_of_le_of_ne htad0 (Ne.symm hz)
      have hb : totalAnnualDebt st4.1 ≤ p.noi / p.min_dscr := by
        rw [le_div_iff hmd]
        have h1 : p.min_dscr ≤ p.noi / totalAnnualDebt st4.1 :=
          le_of_not_lt hlt'
        rw [le_div_iff htpos] at h1
        linarith
      linarith
  · obtain ⟨hmain1, hmain2, hmain3, hmain4⟩ := dscrLoop_main (dscrItems st5.1)
      st5 (max (totalAnnualDebt st4.1 - p.noi / p.min_dscr) 0) hitems hpw
    rw [← hres] at hmain1 hmain2 hmain3 hmain4
    have hcek : isDebtKind ce.kind = false := by
      rw [findEquity_kind hce]
      rfl
    have hL : L = res.1.1 ++ [(ce, add)] := congrArg Prod.fst hst
    have hr : r = res.1.2 - add := congrArg Prod.snd hst
    have hreq0 : 0 ≤ p.noi / p.min_dscr := div_nonneg hnoi hmd.le
    have hitemsS : itemsService (dscrItems st5.1) = totalAnnualDebt st5.1 :=
      itemsService_dscrItems st5.1
    refine ⟨?_, ?_, ?_, ?_⟩
    · rw [hL, hr]
      exact @sum_inv_append res.1 _ ce add (hmain1.trans hsum5)
    · rw [hL, totalAnnualDebt_append_nondebt _ _ _ hcek]
      rcases max_cases (totalAnnualDebt st4.1 - p.noi / p.min_dscr) 0 with
        ⟨hmx, hge⟩ | ⟨hmx, hlt2⟩
      · rw [hmx] at hmain2 hmain3
        rcases hmain3 with hA | hB
        · linarith
        · rw [hitemsS] at hB
          linarith
      · have hres0 : res = (st5, 0) := by
          rw [hres, hmx, dscrLoop_of_le _ _ _ htol.le]
        rw [hres0]
        simp only
        linarith
    · rw [hL]
      exact debtNonneg_append_nondebt ce add hcek (hmain4 hnn5)
    · rw [hL]
      have hclres : OptsClosed opts res.1.1 := by
        rw [hres]
        exact dscrLoop_closed _ _ _ hcl5
      exact @optsClosed_append opts res.1 ce add (findEquity_mem hce) hclres

/-! ### Slice-level bridges -/

theorem keptSum_eq (L : List Alloc) :
    keptSum L = amountSum L - droppedSum L := by
  induction L with
  | nil => simp [keptSum, amountSum, droppedSum]
  | cons e es ih =>
    simp only [keptSum, amountSum, droppedSum, List.map_cons, List.sum_cons]
      at ih ⊢
    by_cases he : e.2 ≤ tol6 <;> simp only [he, if_pos, if_neg, if_true,
      if_false] <;> linarith

theorem sliceAmountSum_eq (tdc : ℚ) (L : List Alloc) :
    sliceAmountSum (buildSlices tdc (aggregate L)) = keptSum L := by
  have h1 : sliceAmountSum (buildSlices tdc (aggregate L)) =
      aggWSum (fun _ => 1) (aggregate L) := by
    unfold sliceAmountSum
    exact buildSlices_wsum tdc _ _ (fun k amt => by simp) (aggregate L)
  rw [h1, aggregate_wsum]
  unfold ledgerWSum keptSum
  congr 1
  refine List.map_congr_left (fun e _ => ?_)
  by_cases he : e.2 ≤ tol6 <;> simp [he]

theorem debtSliceSum_eq (tdc : ℚ) (L : List Alloc) :
    debtSliceSum (buildSlices tdc (aggregate L)) =
      ledgerWSum (fun k => if isDebtKind k.2.1 then 1 else 0) L := by
  have h1 : debtSliceSum (buildSlices tdc (aggregate L)) =
      aggWSum (fun k => if isDebtKind k.2.1 then 1 else 0) (aggregate L) := by
    unfold debtSliceSum
    refine buildSlices_wsum tdc _ _ (fun k amt => ?_) (aggregate L)
    by_cases hk : isDebtKind k.2.1 <;> simp [hk]
  rw [h1, aggregate_wsum]

theorem ledgerWSum_debt_le_posDebt (L : List Alloc) :
    ledgerWSum (fun k => if isDebtKind k.2.1 then 1 else 0) L ≤
      posDebtSum L := by
  induction L with
  | nil => simp [ledgerWSum, posDebtSum]
  | cons e es ih =>
    simp only [ledgerWSum, posDebtSum, List.map_cons, List.sum_cons] at ih ⊢
    have hhead : (if e.2 ≤ tol6 then 0
        else e.2 * (if isDebtKind (keyOf e).2.1 then (1 : ℚ) else 0)) ≤
        (if isDebtKind e.1.kind then max e.2 0 else 0) := by
      have hkey : (keyOf e).2.1 = e.1.kind := rfl
      rw [hkey]
      by_cases he : e.2 ≤ tol6
      · rw [if_pos he]
        by_cases hk : isDebtKind e.1.kind <;> simp [hk]
      · rw [if_neg he]
        by_cases hk : isDebtKind e.1.kind <;> simp [hk]
    linarith

theorem enfSlices_eq (opts : List CapitalOption) (tdc : ℚ) (L : List Alloc) :
    enforcedServiceOfSlices opts (buildSlices tdc (aggregate L)) =
      ledgerWSum
        (fun k => if isDebtKind k.2.1 && enfFlag opts k.1 then k.2.2 else 0)
        L := by
  have h1 : enforcedServiceOfSlices opts (buildSlices tdc (aggregate L)) =
      aggWSum
        (fun k => if isDebtKind k.2.1 && enfFlag opts k.1 then k.2.2 else 0)
        (aggregate L) := by
    unfold enforcedServiceOfSlices
    refine buildSlices_wsum tdc _ _ (fun k amt => ?_) (aggregate L)
    by_cases hk : isDebtKind k.2.1 && enfFlag opts k.1 <;> simp [hk] <;> ring
  rw [h1, aggregate_wsum]

theorem ledgerWSum_enf_le {opts : List CapitalOption} (hdn : distinctNames opts)
    (hcost : ∀ o ∈ opts, 0 ≤ o.annual_cost) :
    ∀ {L : List Alloc}, OptsClosed opts L → DebtNonneg L →
      ledgerWSum
        (fun k => if isDebtKind k.2.1 && enfFlag opts k.1 then k.2.2 else 0)
        L ≤ totalAnnualDebt L
  | [], _, _ => le_refl _
  | e :: es, hcl, hnn => by
    have ih := ledgerWSum_enf_le hdn hcost (fun e' he' => hcl e' (.tail _ he'))
      (fun e' he' => hnn e' (.tail _ he'))
    simp only [ledgerWSum, totalAnnualDebt, List.map_cons, List.sum_cons]
      at ih ⊢
    have hflag : enfFlag opts e.1.name = e.1.enforce_dscr :=
      enfFlag_eq hdn (hcl e (.head _))
    have hkey1 : (keyOf e).1 = e.1.name := rfl
    have hkey2 : (keyOf e).2.1 = e.1.kind := rfl
    have hkey3 : (keyOf e).2.2 = e.1.annual_cost := rfl
    rw [hkey1, hkey2, hkey3, hflag]
    by_cases hk : isDebtKind e.1.kind && e.1.enforce_dscr
    · have hke : isDebtKind e.1.kind = true ∧ e.1.enforce_dscr = true := by
        rw [Bool.and_eq_true] at hk
        exact hk
      have he2 : 0 ≤ e.2 := hnn e (.head _) hke.1
      have hc2 : 0 ≤ e.1.annual_cost := hcost e.1 (hcl e (.head _))
      rw [if_pos hk, if_pos hk]
      by_cases he : e.2 ≤ tol6
      · rw [if_pos he]
        have := mul_nonneg he2 hc2
        linarith
      · rw [if_neg he]
        linarith
    · rw [if_neg hk, if_neg hk]
      by_cases he : e.2 ≤ tol6 <;> simp only [he, if_pos, if_neg, if_true,
        if_false, mul_zero] <;> linarith

theorem instrSlices_eq {opts : List CapitalOption} (hdn : distinctNames opts)
    {ce : CapitalOption} (hcem : ce ∈ opts) (tdc : ℚ) :
    ∀ {L : List Alloc}, OptsClosed opts L →
      instrAmount ce (buildSlices tdc (aggregate L)) = keptNamed ce.name L := by
  have h1 : ∀ L : List Alloc, instrAmount ce (buildSlices tdc (aggregate L)) =
      aggWSum
        (fun k => if k.1 = ce.name ∧ k.2.1 = ce.kind then 1 else 0)
        (aggregate L) := by
    intro L
    unfold instrAmount
    refine buildSlices_wsum tdc _ _ (fun k amt => ?_) (aggregate L)
    by_cases hk : k.1 = ce.name ∧ k.2.1 = ce.kind <;> simp [hk]
  intro L hcl
  rw [h1, aggregate_wsum]
  unfold ledgerWSum keptNamed
  congr 1
  refine List.map_congr_left (fun e he => ?_)
  simp only [keyOf]
  by_cases hn : e.1.name = ce.name
  · have heq : e.1 = ce := distinct_name_inj hdn (hcl e he) hcem hn
    have hkd : e.1.kind = ce.kind := by rw [heq]
    by_cases hx : tol6 < e.2
    · rw [if_neg (by linarith), if_pos (⟨hn, hkd⟩ : _ ∧ _), if_pos ⟨hn, hx⟩]
      ring
    · have hle : e.2 ≤ tol6 := le_of_not_lt hx
      rw [if_pos hle, if_neg (fun hc => hx hc.2)]
  · have hnk : ¬((e.1.name = ce.name ∧ e.1.kind = ce.kind)) :=
      fun hc => hn hc.1
    rw [if_neg hnk]
    by_cases hx : e.2 ≤ tol6
    · rw [if_pos hx, if_neg (fun hc => hn hc.1)]
    · rw [if_neg hx, if_neg (fun hc => hn hc.1)]
      ring

/-! ### Further pipeline lemmas for the claim theorems -/

theorem ltc_closed (p : Project) (opts : List CapitalOption)
    (st4 st5 : AllocState)
    (h5 : ltcCorrection p (findEquity opts) st4 = .ok st5)
    (hcl : OptsClosed opts st4.1) : OptsClosed opts st5.1 := by
  rcases ltcCorrection_ok _ _ _ _ h5 with ⟨hc, _⟩ | ⟨ml, ce, ratio, rem, add,
    _, hce, _, _, _, _, _, hc⟩
  · rw [hc]
    exact hcl
  · rw [hc]
    intro e' he'
    rcases List.mem_append.mp he' with h1 | h1
    · obtain ⟨e, he, rfl⟩ := List.mem_map.mp h1
      rw [ltcScale_fst]
      exact hcl e he
    · simp only [List.mem_singleton] at h1
      rw [h1]
      exact findEquity_mem hce

theorem core_closed (p : Project) (opts : List CapitalOption)
    (L : List Alloc) (r : ℚ) (hok : optimize_core p opts = .ok (L, r)) :
    OptsClosed opts L := by
  unfold optimize_core at hok
  rcases h4 : stage4 p opts with e4 | st4
  · rw [h4] at hok
    exact absurd hok (by simp)
  rw [h4] at hok
  simp only at hok
  rcases h5 : ltcCorrection p (findEquity opts) st4 with e5 | st5
  · rw [h5] at hok
    exact absurd hok (by simp)
  rw [h5] at hok
  simp only at hok
  have hcl5 := ltc_closed p opts st4 st5 h5 (stage4_closed p opts st4 h4)
  rcases dscrCorrection_ok p (findEquity opts) (totalAnnualDebt st4.1) st5
    (L, r) hok with ⟨_, hst⟩ | ⟨ce, res, add, _, hce, hres, _, _, hst⟩
  · have hL : L = st5.1 := congrArg Prod.fst hst
    rw [hL]
    exact hcl5
  · have hL : L = res.1.1 ++ [(ce, add)] := congrArg Prod.fst hst
    rw [hL]
    have hclres : OptsClosed opts res.1.1 := by
      rw [hres]
      exact dscrLoop_closed _ _ _ hcl5
    exact @optsClosed_append opts res.1 ce add (findEquity_mem hce) hclres

theorem pass1_foldl_namedCount (tdc : ℚ) (nm : String) :
    ∀ (l : List CapitalOption) (st : AllocState),
      namedCount nm ((l.foldl (pass1Step tdc) st).1) ≤
        namedCount nm st.1 +
          (l.filter (fun o => decide (o.name = nm))).length
  | [], st => by simp
  | o :: l, st => by
    have hstep : namedCount nm ((pass1Step tdc st o).1) ≤
        namedCount nm st.1 + if o.name = nm then 1 else 0 := by
      rcases pass1Step_cases tdc st o with hc | ⟨x, _, hc⟩ <;> rw [hc]
      · exact Nat.le_add_right _ _
      · rw [namedCount_append_single]
    have htail := pass1_foldl_namedCount tdc nm l (pass1Step tdc st o)
    rw [List.foldl_cons]
    refine le_trans htail ?_
    by_cases hn : o.name = nm
    · have hl : ((o :: l).filter (fun o => decide (o.name = nm))).length =
          (l.filter (fun o => decide (o.name = nm))).length + 1 := by
        simp [List.filter_cons, hn]
      rw [hl]
      rw [if_pos hn] at hstep
      omega
    · have hl : ((o :: l).filter (fun o => decide (o.name = nm))).length =
          (l.filter (fun o => decide (o.name = nm))).length := by
        simp [List.filter_cons, hn]
      rw [hl]
      rw [if_neg hn] at hstep
      omega

theorem stage3_namedCount_le (p : Project) (opts : List CapitalOption)
    (hdn : distinctNames opts) (nm : String) :
    namedCount nm (stage3 p opts).1 ≤ 3 := by
  have hone := distinct_filter_le_one hdn nm
  have hsort :
      ((sortOptions opts).filter (fun x => decide (x.name = nm))).length =
        (opts.filter (fun x => decide (x.name = nm))).length := by
    unfold sortOptions
    exact stableSort_filter_length _ _ _
  have h1 : namedCount nm (stage1 p opts).1 ≤ 1 := by
    have hgrow := pass1_foldl_namedCount p.tdc nm (sortOptions opts)
      (([] : List Alloc), p.tdc)
    have hz : namedCount nm ((([] : List Alloc), p.tdc) : AllocState).1 = 0 := by
      simp [namedCount, entriesNamed]
    unfold stage1
    omega
  have h2 : namedCount nm (stage2 p opts).1 ≤ 2 := by
    have hgrow := pass2_foldl_namedCount p.tdc nm (sortOptions opts)
      (stage1 p opts)
    unfold stage2
    omega
  rcases equityFloor_cases p (findEquity opts) (stage2 p opts) with hc |
    ⟨ce, x, hce, _, hc⟩ <;> (unfold stage3; rw [hc])
  · omega
  · rw [namedCount_append_single]
    by_cases hn : ce.name = nm
    · rw [if_pos hn]
      omega
    · rw [if_neg hn]
      omega

theorem equityFloor_some (p : Project) (ce : CapitalOption) (st : AllocState) :
    equityFloor p (some ce) st =
      if currentAmt ce.name st.1 <
          max (p.min_equity * p.tdc) (ce.min_share * p.tdc) then
        if min (max (p.min_equity * p.tdc) (ce.min_share * p.tdc) -
              currentAmt ce.name st.1)
            (ce.max_share * p.tdc - currentAmt ce.name st.1) > 0 then
          (st.1 ++ [(ce,
            min (max (p.min_equity * p.tdc) (ce.min_share * p.tdc) -
                currentAmt ce.name st.1)
              (ce.max_share * p.tdc - currentAmt ce.name st.1))],
           st.2 -
            min (max (p.min_equity * p.tdc) (ce.min_share * p.tdc) -
                currentAmt ce.name st.1)
              (ce.max_share * p.tdc - currentAmt ce.name st.1))
        else st
      else st := rfl

theorem stage3_equity (p : Project) (opts : List CapitalOption)
    (ce : CapitalOption) (hce : findEquity opts = some ce)
    (hhead : max (p.min_equity * p.tdc) (ce.min_share * p.tdc) ≤
      ce.max_share * p.tdc) :
    max (p.min_equity * p.tdc) (ce.min_share * p.tdc) ≤
      currentAmt ce.name (stage3 p opts).1 := by
  have hst : stage3 p opts = equityFloor p (some ce) (stage2 p opts) := by
    unfold stage3
    rw [hce]
  rw [hst, equityFloor_some]
  set cur := currentAmt ce.name (stage2 p opts).1 with hcur
  set mae := max (p.min_equity * p.tdc) (ce.min_share * p.tdc) with hmae
  by_cases hlt : cur < mae
  · have hadj : min (mae - cur) (ce.max_share * p.tdc - cur) = mae - cur :=
      min_eq_left (by linarith)
    rw [if_pos hlt, hadj, if_pos (by linarith : mae - cur > 0)]
    have hfin : currentAmt ce.name
        ((stage2 p opts).1 ++ [(ce, mae - cur)]) = mae := by
      rw [currentAmt_append, if_pos rfl, ← hcur]
      ring
    exact le_of_eq hfin.symm
  · rw [if_neg hlt]
    exact not_lt.mp hlt

theorem keptNamed_nondebt_ltcScale {nm : String} (r : ℚ) (L : List Alloc)
    (h : ∀ e ∈ L, e.1.name = nm → isDebtKind e.1.kind = false) :
    keptNamed nm (L.map (ltcScale r)) = keptNamed nm L :=
  keptNamed_eq_of_entries (entriesNamed_ltcScale r L h)

theorem dscrLoop_keptNamed_other (nm : String) (items : List Alloc)
    (st : AllocState) (delta : ℚ) (h : ∀ x ∈ items, x.1.name ≠ nm) :
    keptNamed nm (dscrLoop items st delta).1.1 = keptNamed nm st.1 :=
  keptNamed_eq_of_entries (dscrLoop_entriesNamed_other nm items st delta h)

theorem core_keptNamed (p : Project) (opts : List CapitalOption)
    (hdn : distinctNames opts) (ce : CapitalOption)
    (hce : findEquity opts = some ce)
    (L : List Alloc) (r : ℚ) (hok : optimize_core p opts = .ok (L, r)) :
    keptNamed ce.name (stage3 p opts).1 ≤ keptNamed ce.name L := by
  unfold optimize_core at hok
  rcases h4 : stage4 p opts with e4 | st4
  · rw [h4] at hok
    exact absurd hok (by simp)
  rw [h4] at hok
  simp only at hok
  rcases h5 : ltcCorrection p (findEquity opts) st4 with e5 | st5
  · rw [h5] at hok
    exact absurd hok (by simp)
  rw [h5] at hok
  simp only at hok
  have hcl4 := stage4_closed p opts st4 h4
  have hcek : isDebtKind ce.kind = false := by
    rw [findEquity_kind hce]
    rfl
  have hnamed4 : ∀ e ∈ st4.1, e.1.name = ce.name →
      isDebtKind e.1.kind = false := by
    intro e he hn
    have he2 : e.1 = ce :=
      distinct_name_inj hdn (hcl4 e he) (findEquity_mem hce) hn
    rw [he2]
    exact hcek
  have h34 : keptNamed ce.name (stage3 p opts).1 ≤ keptNamed ce.name st4.1 := by
    rcases forceFill_ok _ _ _ _ h4 with hc | ⟨ce2, x, _, _, hc⟩
    · rw [hc]
    · rw [hc]
      exact keptNamed_le_append _ _ _ _
  have hcl5 : OptsClosed opts st5.1 := ltc_closed p opts st4 st5 h5 hcl4
  have h45 : keptNamed ce.name st4.1 ≤ keptNamed ce.name st5.1 := by
    rcases ltcCorrection_ok _ _ _ _ h5 with ⟨hc, _⟩ | ⟨ml, ce2, ratio, rem,
      add, _, hce2, _, _, _, _, _, hc⟩
    · rw [hc]
    · rw [hc]
      have hmap : keptNamed ce.name (st4.1.map (ltcScale ratio)) =
          keptNamed ce.name st4.1 :=
        keptNamed_nondebt_ltcScale ratio st4.1 hnamed4
      rw [← hmap]
      exact keptNamed_le_append _ _ _ _
  rcases dscrCorrection_ok p (findEquity opts) (totalAnnualDebt st4.1) st5
    (L, r) hok with ⟨_, hst⟩ | ⟨ce2, res, add, _, hce2, hres, _, _, hst⟩
  · have hL : L = st5.1 := congrArg Prod.fst hst
    rw [hL]
    exact le_trans h34 h45
  · have hL : L = res.1.1 ++ [(ce2, add)] := congrArg Prod.fst hst
    have hloop : keptNamed ce.name res.1.1 = keptNamed ce.name st5.1 := by
      rw [hres]
      refine dscrLoop_keptNamed_other _ _ _ _ (fun x hx => ?_)
      obtain ⟨hmem, hk, _⟩ := dscrItems_mem hx
      intro hn
      have hx2 : x.1 = ce :=
        distinct_name_inj hdn (hcl5 x hmem) (findEquity_mem hce) hn
      rw [hx2, hcek] at hk
      cases hk
    rw [hL]
    refine le_trans (le_trans h34 h45) ?_
    rw [← hloop]
    exact keptNamed_le_append _ _ _ _

theorem core_posDebt (p : Project) (opts : List CapitalOption) (ml : ℚ)
    (hml : p.max_ltc = some ml) (hml0 : 0 ≤ ml) (htdc : 0 ≤ p.tdc)
    (L : List Alloc) (r : ℚ) (hok : optimize_core p opts = .ok (L, r)) :
    posDebtSum L ≤ ml * p.tdc + tol6 := by
  unfold optimize_core at hok
  rcases h4 : stage4 p opts with e4 | st4
  · rw [h4] at hok
    exact absurd hok (by simp)
  rw [h4] at hok
  simp only at hok
  rcases h5 : ltcCorrection p (findEquity opts) st4 with e5 | st5
  · rw [h5] at hok
    exact absurd hok (by simp)
  rw [h5] at hok
  simp only at hok
  have hnn4 := stage4_nonneg p opts st4 h4
  have htol : (0 : ℚ) < tol6 := by norm_num [tol6]
  have htol9 : (0 : ℚ) < tol9 := by norm_num [tol9]
  have htol96 : tol9 ≤ tol6 := by norm_num [tol9, tol6]
  have hcap0 : 0 ≤ ml * p.tdc := mul_nonneg hml0 htdc
  have hkey : posDebtSum st5.1 ≤ ml * p.tdc + tol9 ∧ DebtNonneg st5.1 := by
    rcases ltcCorrection_ok _ _ _ _ h5 with ⟨hc, hun⟩ | ⟨ml2, ce, ratio, rem,
      add, hml2, hce, htrig, hratio, hrem, hadd, hguard, hc⟩
    · rw [hc]
      have hle : totalDebtAmount st4.1 ≤ ml * p.tdc := le_of_not_lt (hun ml hml)
      rw [posDebt_eq_totalDebt hnn4]
      exact ⟨by linarith, fun e he _ => hnn4 e he⟩
    · have hml2' : ml2 = ml := by
        have hh := hml.symm.trans hml2
        exact (Option.some_inj.mp hh).symm
      rw [hml2'] at htrig hratio
      have htd0 : 0 < totalDebtAmount st4.1 := lt_of_le_of_lt hcap0 htrig
      have hden : 0 < max (totalDebtAmount st4.1) tol9 :=
        lt_of_lt_of_le htd0 (le_max_left _ _)
      have h0r : 0 ≤ ratio := by
        rw [hratio]
        exact div_nonneg (by linarith) hden.le
      have h1r : ratio ≤ 1 := by
        rw [hratio, div_le_one hden]
        have := le_max_left (totalDebtAmount st4.1) tol9
        linarith
      have hcek : isDebtKind ce.kind = false := by
        rw [findEquity_kind hce]
        rfl
      have hscaled : posDebtSum (st4.1.map (ltcScale ratio)) =
          totalDebtAmount st4.1 * (1 - ratio) := scaled_posDebt h1r hnn4
      have hbound : totalDebtAmount st4.1 * (1 - ratio) ≤ ml * p.tdc + tol9 := by
        by_cases hbig : tol9 ≤ totalDebtAmount st4.1
        · have hmx : max (totalDebtAmount st4.1) tol9 = totalDebtAmount st4.1 :=
            max_eq_left hbig
          rw [hratio, hmx]
          have hne : totalDebtAmount st4.1 ≠ 0 := ne_of_gt htd0
          have heq : totalDebtAmount st4.1 *
              (1 - (totalDebtAmount st4.1 - ml * p.tdc) /
                totalDebtAmount st4.1) = ml * p.tdc := by
            field_simp
          rw [heq]
          linarith
        · have hlt : totalDebtAmount st4.1 < tol9 := lt_of_not_le hbig
          have hnn : 0 ≤ totalDebtAmount st4.1 * ratio :=
            mul_nonneg htd0.le h0r
          have hexp : totalDebtAmount st4.1 * (1 - ratio) =
              totalDebtAmount st4.1 - totalDebtAmount st4.1 * ratio := by
            ring
          linarith
      rw [hc]
      refine ⟨?_, ?_⟩
      · rw [posDebt_append_nondebt _ _ _ hcek, hscaled]
        exact hbound
      · exact debtNonneg_append_nondebt ce add hcek (scaled_debtNonneg h1r hnn4)
  obtain ⟨hpd5, hnn5⟩ := hkey
  rcases dscrCorrection_ok p (findEquity opts) (totalAnnualDebt st4.1) st5
    (L, r) hok with ⟨_, hst⟩ | ⟨ce, res, add, _, hce, hres, _, _, hst⟩
  · have hL : L = st5.1 := congrArg Prod.fst hst
    rw [hL]
    linarith
  · have hL : L = res.1.1 ++ [(ce, add)] := congrArg Prod.fst hst
    have hcek : isDebtKind ce.kind = false := by
      rw [findEquity_kind hce]
      rfl
    have hloop : posDebtSum res.1.1 ≤ posDebtSum st5.1 := by
      rw [hres]
      refine dscrLoop_posDebtSum _ _ _ (fun x hx => ?_)
      obtain ⟨hmem, hk, _⟩ := dscrItems_mem hx
      exact hnn5 x hmem hk
    rw [hL, posDebt_append_nondebt _ _ _ hcek]
    linarith

/-! ### Aggregate positivity and key provenance -/

theorem aggAdd_inv {P : AggKey → Prop} {k : AggKey} {a : ℚ} (hk : P k)
    (ha : 0 < a) :
    ∀ agg, (∀ kv ∈ agg, 0 < kv.2 ∧ P kv.1) →
      ∀ kv ∈ aggAdd k a agg, 0 < kv.2 ∧ P kv.1
  | [], _, kv, hkv => by
    simp only [aggAdd, List.mem_singleton] at hkv
    rw [hkv]
    exact ⟨ha, hk⟩
  | x :: xs, h, kv, hkv => by
    by_cases hx : x.1 = k
    · simp only [aggAdd, if_pos hx, List.mem_cons] at hkv
      rcases hkv with rfl | hkv
      · refine ⟨?_, (h x (.head _)).2⟩
        have hx2 := (h x (.head _)).1
        show (0 : ℚ) < x.2 + a
        linarith
      · exact h kv (.tail _ hkv)
    · simp only [aggAdd, if_neg hx, List.mem_cons] at hkv
      rcases hkv with rfl | hkv
      · exact h _ (.head _)
      · exact aggAdd_inv hk ha xs (fun kv' hkv' => h kv' (.tail _ hkv')) kv hkv

theorem aggregate_inv (P : AggKey → Prop) :
    ∀ (L : List Alloc) (acc : List (AggKey × ℚ)),
      (∀ e ∈ L, tol6 < e.2 → P (keyOf e)) →
      (∀ kv ∈ acc, 0 < kv.2 ∧ P kv.1) →
      ∀ kv ∈ L.foldl
        (fun acc e =>
          if e.2 ≤ tol6 then acc
          else aggAdd (e.1.name, e.1.kind, e.1.annual_cost) e.2 acc) acc,
        0 < kv.2 ∧ P kv.1
  | [], _, _, hacc => hacc
  | e :: es, acc, hL, hacc => by
    rw [List.foldl_cons]
    refine aggregate_inv P es _ (fun e' he' hgt => hL e' (.tail _ he') hgt) ?_
    by_cases he : e.2 ≤ tol6
    · rw [if_pos he]
      exact hacc
    · rw [if_neg he]
      have htol : (0 : ℚ) < tol6 := by norm_num [tol6]
      have hgt : tol6 < e.2 := lt_of_not_le he
      exact aggAdd_inv (hL e (.head _) hgt) (by linarith) acc hacc

theorem aggregate_pos_key (P : AggKey → Prop) (L : List Alloc)
    (hL : ∀ e ∈ L, tol6 < e.2 → P (keyOf e)) :
    ∀ kv ∈ aggregate L, 0 < kv.2 ∧ P kv.1 :=
  aggregate_inv P L [] hL (fun kv hkv => absurd hkv (by simp))

theorem buildSlices_mem {tdc : ℚ} {agg : List (AggKey × ℚ)} {s : StackSlice}
    (hs : s ∈ buildSlices tdc agg) :
    ∃ kv ∈ agg, s = ⟨kv.1.1, kv.1.2.1, kv.2, kv.2 / tdc, kv.1.2.2⟩ := by
  unfold buildSlices at hs
  obtain ⟨kv, hkv, rfl⟩ := List.mem_map.mp hs
  exact ⟨kv, hkv, rfl⟩

theorem enfService_nonneg (opts : List CapitalOption) :
    ∀ sl : List StackSlice,
      (∀ s ∈ sl, 0 ≤ s.amount ∧ 0 ≤ s.annual_cost) →
      0 ≤ enforcedServiceOfSlices opts sl
  | [], _ => le_refl _
  | t :: ts, hnn => by
    have ih := enfService_nonneg opts ts (fun s hs => hnn s (.tail _ hs))
    have ht := hnn t (.head _)
    simp only [enforcedServiceOfSlices, List.map_cons, List.sum_cons] at ih ⊢
    by_cases hc : isDebtKind t.kind && enfFlag opts t.option_name
    · rw [if_pos hc]
      have := mul_nonneg ht.1 ht.2
      linarith
    · rw [if_neg hc]
      linarith

theorem enfService_single_le (opts : List CapitalOption) :
    ∀ sl : List StackSlice,
      (∀ s ∈ sl, 0 ≤ s.amount ∧ 0 ≤ s.annual_cost) →
      ∀ s ∈ sl, (isDebtKind s.kind && enfFlag opts s.option_name) = true →
        s.amount * s.annual_cost ≤ enforcedServiceOfSlices opts sl
  | [], _, s, hs, _ => absurd hs (by simp)
  | t :: ts, hnn, s, hs, hcond => by
    have hrest0 : 0 ≤ enforcedServiceOfSlices opts ts :=
      enfService_nonneg opts ts (fun x hx => hnn x (.tail _ hx))
    have hhead0 : 0 ≤ (if isDebtKind t.kind && enfFlag opts t.option_name then
        t.amount * t.annual_cost else 0) := by
      by_cases hc : isDebtKind t.kind && enfFlag opts t.option_name
      · rw [if_pos hc]
        exact mul_nonneg (hnn t (.head _)).1 (hnn t (.head _)).2
      · rw [if_neg hc]
    have hsum : enforcedServiceOfSlices opts (t :: ts) =
        (if isDebtKind t.kind && enfFlag opts t.option_name then
          t.amount * t.annual_cost else 0) +
          enforcedServiceOfSlices opts ts := by
      simp [enforcedServiceOfSlices]
    rcases List.mem_cons.mp hs with rfl | hmem
    · rw [hsum, if_pos hcond]
      linarith
    · have ih := enfService_single_le opts ts (fun x hx => hnn x (.tail _ hx))
        s hmem hcond
      rw [hsum]
      linarith

/-! ### Slice construction facts -/

theorem buildSlices_share (tdc : ℚ) (agg : List (AggKey × ℚ)) :
    ∀ s ∈ buildSlices tdc agg, s.share = s.amount / tdc := by
  intro s hs
  obtain ⟨kv, _, rfl⟩ := buildSlices_mem hs
  rfl

theorem buildSlices_costSum (tdc : ℚ) (agg : List (AggKey × ℚ)) :
    ((buildSlices tdc agg).map (fun s => s.amount * s.annual_cost)).sum =
      totalCostAnnual agg := by
  unfold buildSlices totalCostAnnual
  rw [List.map_map]
  rfl

theorem optimize_stack_ok {p : Project} {opts : List CapitalOption} {g : ℚ}
    {stack : CapitalStack}
    (h : optimize_stack p opts g = .ok stack) :
    ∃ L r, optimize_core p opts = .ok (L, r) ∧
      stack.project_name = p.name ∧ stack.tdc = p.tdc ∧
      stack.wacc = totalCostAnnual (aggregate L) / p.tdc ∧
      stack.slices = buildSlices p.tdc (aggregate L) := by
  unfold optimize_stack at h
  rcases hc : optimize_core p opts with e | ⟨L0, r0⟩
  · rw [hc] at h
    exact absurd h (by simp)
  · rw [hc] at h
    simp only at h
    cases h
    exact ⟨L0, r0, rfl, rfl, rfl, rfl, rfl⟩

/-! ### Per-instrument max_ltc in the second pass -/

theorem pass2Step_some_ltc (tdc : ℚ) (st : AllocState) (opt : CapitalOption)
    (l : ℚ) (hl : opt.max_ltc = some l) :
    pass2Step tdc st opt =
      if st.2 ≤ tol6 then st
      else
        if min (min (opt.max_share * tdc - currentAmt opt.name st.1)
            (l * tdc - currentAmt opt.name st.1)) st.2 > tol6 then
          (st.1 ++
            [(opt,
              min (min (opt.max_share * tdc - currentAmt opt.name st.1)
                (l * tdc - currentAmt opt.name st.1)) st.2)],
           st.2 -
            min (min (opt.max_share * tdc - currentAmt opt.name st.1)
              (l * tdc - currentAmt opt.name st.1)) st.2)
        else st := by
  unfold pass2Step
  rw [hl]

theorem pass2_ltc_cap (tdc : ℚ) (st : AllocState) (opt : CapitalOption)
    (l : ℚ) (hl : opt.max_ltc = some l) :
    currentAmt opt.name ((pass2Step tdc st opt).1) ≤
      max (currentAmt opt.name st.1) (l * tdc) := by
  rw [pass2Step_some_ltc tdc st opt l hl]
  by_cases h1 : st.2 ≤ tol6
  · rw [if_pos h1]
    exact le_max_left _ _
  · rw [if_neg h1]
    set add := min (min (opt.max_share * tdc - currentAmt opt.name st.1)
      (l * tdc - currentAmt opt.name st.1)) st.2 with hadd
    by_cases h2 : add > tol6
    · rw [if_pos h2]
      have hle : add ≤ l * tdc - currentAmt opt.name st.1 :=
        le_trans (min_le_left _ _) (min_le_right _ _)
      have hfin : currentAmt opt.name (st.1 ++ [(opt, add)]) =
          currentAmt opt.name st.1 + add := by
        rw [currentAmt_append, if_pos rfl]
      rw [hfin]
      have hmr := le_max_right (currentAmt opt.name st.1) (l * tdc)
      linarith
    · rw [if_neg h2]
      exact le_max_left _ _

/-! ### Concrete inputs used by the claim counterexamples and witnesses -/

/-- The notes string optimize_stack always emits, src/main.py line 173. -/
def noteStr : String :=
  "Heuristic allocation - minimizes cost subject to DSCR/LTC/equity constraints."

def pC1 : Project := ⟨"ce", 1, 1, 5/4, some (13/20), 0⟩

def optPrefA : CapitalOption :=
  ⟨"PrefA", .pref, 1/20, 0, 0, 9/10, some (1/5), false⟩

def optEq1 : CapitalOption := ⟨"Eq", .equity, 3/25, 0, 0, 1/2, some (3/10), false⟩

def optPrefAnol : CapitalOption := ⟨"PrefA", .pref, 1/20, 0, 0, 9/10, none, false⟩

def stackC1 : CapitalStack :=
  ⟨"ce", 1, 7/100,
    [⟨"PrefA", .pref, 1/5, 1/5, 1/20⟩, ⟨"Eq", .equity, 1/2, 1/2, 3/25⟩],
    some noteStr⟩

def stackC1b : CapitalStack :=
  ⟨"ce", 1, 57/1000,
    [⟨"PrefA", .pref, 9/10, 9/10, 1/20⟩, ⟨"Eq", .equity, 1/10, 1/10, 3/25⟩],
    some noteStr⟩

def pC2 : Project := ⟨"ce2", 1, 1/1000000, 1, some 1, 0⟩

def optD2 : CapitalOption := ⟨"D", .debt, 1/20, 0, 0, 1/25000, none, true⟩

def optE2 : CapitalOption := ⟨"E", .equity, 1/2, 0, 0, 1, none, false⟩

def stackC2 : CapitalStack :=
  ⟨"ce2", 1, 249991/500000,
    [⟨"D", .debt, 1/25000, 1/25000, 1/20⟩,
     ⟨"E", .equity, 24999/25000, 24999/25000, 1/2⟩],
    some noteStr⟩

def pC3 : Project := ⟨"ce3", 1/1000000000, 1, 5/4, some (1/10), 0⟩

def optD3 : CapitalOption := ⟨"D", .debt, 1/100, 0, 1/2, 1/2, none, false⟩

def optE3 : CapitalOption := ⟨"E", .equity, 1/2, 0, 0, 1, none, false⟩

def pC4 : Project := ⟨"ce4", 1, 1, 5/4, some (13/20), 2/5⟩

def optD4 : CapitalOption := ⟨"X", .debt, 1/100, 0, 1/2, 1/2, none, false⟩

def optP4 : CapitalOption := ⟨"P", .pref, 1/50, 0, 0, 1, none, false⟩

def optE4 : CapitalOption := ⟨"X", .equity, 1/2, 0, 0, 1, none, false⟩

def stackC4 : CapitalStack :=
  ⟨"ce4", 1, 3/200,
    [⟨"X", .debt, 1/2, 1/2, 1/100⟩, ⟨"P", .pref, 1/2, 1/2, 1/50⟩],
    some noteStr⟩

def pC5 : Project := ⟨"ce5", 1, 1, 5/4, some (1/2), 0⟩

def optD5 : CapitalOption := ⟨"D", .debt, 1/20, 0, 0, 1, none, false⟩

def pC10 : Project := ⟨"ce10", 1, 0, 1, some 1, 0⟩

def optD10 : CapitalOption := ⟨"D", .debt, 1/100, 0, 0, 1/10000, none, true⟩

def optE10 : CapitalOption := ⟨"E", .equity, 1/2, 0, 0, 1, none, false⟩

def stackC10 : CapitalStack :=
  ⟨"ce10", 1, 499951/1000000,
    [⟨"D", .debt, 1/10000, 1/10000, 1/100⟩,
     ⟨"E", .equity, 9999/10000, 9999/10000, 1/2⟩],
    some noteStr⟩

def pW : Project := ⟨"w", 1, 1, 5/4, some (13/20), 1/10⟩

def oSD : CapitalOption := ⟨"SD", .debt, 3/50, 0, 0, 13/20, none, true⟩

def oCE : CapitalOption := ⟨"CE", .equity, 3/25, 0, 1/10, 1, none, false⟩

def stackW : CapitalStack :=
  ⟨"w", 1, 81/1000,
    [⟨"CE", .equity, 7/20, 7/20, 3/25⟩, ⟨"SD", .debt, 13/20, 13/20, 3/50⟩],
    some noteStr⟩

def ledgerW : List Alloc := [(oCE, 1/10), (oSD, 13/20), (oCE, 1/4)]

/-! ### The claims -/

/-- Claim C6: for all noi ≥ 0 and annual_debt_service ≥ 0, the DSCR
calculator returns positive infinity exactly when the service is zero, and
noi / annual_debt_service otherwise; it is a total pure function with no
error case. -/
theorem C6_confirmed (noi s : ℚ) (hnoi : 0 ≤ noi) (hs : 0 ≤ s) :
    (compute_dscr noi s = .inf ↔ s = 0) ∧
      (s ≠ 0 → compute_dscr noi s = .val (noi / s)) := by
  unfold compute_dscr
  constructor
  · constructor
    · intro h
      by_cases hz : s = 0
      · exact hz
      · rw [if_neg hz] at h
        cases h
    · intro hz
      rw [if_pos hz]
  · intro hz
    rw [if_neg hz]

/-- Witness for C6 at noi = 3 with service 0 and service 2. -/
theorem C6_witness :
    compute_dscr 3 0 = .inf ∧ compute_dscr 3 2 = .val (3 / 2) :=
  ⟨(C6_confirmed 3 0 (by norm_num) (by norm_num)).1.mpr rfl,
   (C6_confirmed 3 2 (by norm_num) (by norm_num)).2 (by norm_num)⟩

/-- Claim C9: optimize_stack is deterministic and pure — two calls with
identical (project, options, granularity) inputs produce the identical
stack or the identical failure; the embedding is a total function of its
arguments alone, with no other state. -/
theorem C9_confirmed (p p' : Project) (opts opts' : List CapitalOption)
    (g g' : ℚ) (hp : p = p') (ho : opts = opts') (hg : g = g') :
    optimize_stack p opts g = optimize_stack p' opts' g' := by
  rw [hp, ho, hg]

/-- Witness for C9 at a concrete successful input. -/
theorem C9_witness :
    optimize_stack pW [oSD, oCE] (1/100) =
      optimize_stack pW [oSD, oCE] (1/100) :=
  C9_confirmed pW pW [oSD, oCE] [oSD, oCE] (1/100) (1/100) rfl rfl rfl

/-- Claim C7: in every stack optimize_stack returns, each slice's share
equals amount / tdc exactly, and wacc equals the sum over slices of
amount · annual_cost, divided by tdc, exactly. -/
theorem C7_confirmed (p : Project) (opts : List CapitalOption) (g : ℚ)
    (stack : CapitalStack) (h : optimize_stack p opts g = .ok stack) :
    (∀ s ∈ stack.slices, s.share = s.amount / p.tdc) ∧
      stack.wacc =
        ((stack.slices.map (fun s => s.amount * s.annual_cost)).sum) /
          p.tdc := by
  obtain ⟨L, r, hcore, hname, htdc, hwacc, hslices⟩ := optimize_stack_ok h
  constructor
  · rw [hslices]
    exact buildSlices_share p.tdc (aggregate L)
  · rw [hwacc, hslices, buildSlices_costSum]

/-- Witness for C7 at the concrete stack returned on pW. -/
theorem C7_witness :
    (⟨"CE", InstrKind.equity, 7/20, 7/20, 3/25⟩ : StackSlice).share =
        (⟨"CE", InstrKind.equity, 7/20, 7/20, 3/25⟩ : StackSlice).amount /
          pW.tdc ∧
      stackW.wacc =
        ((stackW.slices.map (fun s => s.amount * s.annual_cost)).sum) /
          pW.tdc := by
  have h := C7_confirmed pW [oSD, oCE] (1/100) stackW
    (by with_unfolding_all decide)
  exact ⟨h.1 _ (by with_unfolding_all decide), h.2⟩

/-- Every failure of the allocation pipeline is one of the four
HTTPException funding messages or the uncaught AttributeError. -/
theorem optimize_core_error (p : Project) (opts : List CapitalOption)
    (e : StackError) (h : optimize_core p opts = .error e) :
    e = .httpErr "No equity option to complete the stack" ∨
      e = .httpErr "Constraints too tight to fully fund the stack" ∨
      e = .httpErr "Equity caps too tight to replace reduced debt" ∨
      e = .httpErr "Equity caps too tight to hit DSCR" ∨
      e = .attrNone := by
  unfold optimize_core at h
  rcases h4 : stage4 p opts with e4 | st4
  · rw [h4] at h
    simp only at h
    cases h
    rcases forceFill_error _ _ _ _ h4 with ⟨he, _⟩ | he
    · exact .inl he
    · exact .inr (.inl he)
  · rw [h4] at h
    simp only at h
    rcases h5 : ltcCorrection p (findEquity opts) st4 with e5 | st5
    · rw [h5] at h
      simp only at h
      cases h
      rcases ltcCorrection_error _ _ _ _ h5 with ⟨he, _⟩ | he
      · exact .inr (.inr (.inr (.inr he)))
      · exact .inr (.inr (.inl he))
    · rw [h5] at h
      simp only at h
      rcases dscrCorrection_error _ _ _ _ _ h with ⟨he, _⟩ | he
      · exact .inr (.inr (.inr (.inr he)))
      · exact .inr (.inr (.inr (.inl he)))

/-- Claim C5 (amended): every failure of optimize_stack is either one of
the four HTTPException funding errors — each with its own distinct
diagnostic message identifying the stage — or, when no equity option
exists on the LTC- or DSCR-correction path, the uncaught AttributeError
from dereferencing None at src/main.py lines 114/143, which is NOT a
caller-facing funding error. -/
theorem C5_amended (p : Project) (opts : List CapitalOption) (g : ℚ)
    (e : StackError) (h : optimize_stack p opts g = .error e) :
    e = .httpErr "No equity option to complete the stack" ∨
      e = .httpErr "Constraints too tight to fully fund the stack" ∨
      e = .httpErr "Equity caps too tight to replace reduced debt" ∨
      e = .httpErr "Equity caps too tight to hit DSCR" ∨
      e = .attrNone := by
  unfold optimize_stack at h
  rcases hc : optimize_core p opts with e0 | st
  · rw [hc] at h
    simp only at h
    cases h
    exact optimize_core_error p opts _ hc
  · rw [hc] at h
    simp only at h
    exact absurd h (by simp)

/-- Counterexample for C5: with no equity option and the LTC correction
triggered, the run ends in the uncaught AttributeError, which is none of
the caller-facing funding errors. -/
theorem C5_counterexample :
    optimize_stack pC5 [optD5] (1/100) = .error .attrNone ∧
      StackError.attrNone ∉
        [StackError.httpErr "No equity option to complete the stack",
         StackError.httpErr "Constraints too tight to fully fund the stack",
         StackError.httpErr "Equity caps too tight to replace reduced debt",
         StackError.httpErr "Equity caps too tight to hit DSCR"] :=
  ⟨by with_unfolding_all decide, by decide⟩

/-- Witness for C5 at the concrete erroring input. -/
theorem C5_witness :
    StackError.attrNone = .httpErr "No equity option to complete the stack" ∨
      StackError.attrNone =
        .httpErr "Constraints too tight to fully fund the stack" ∨
      StackError.attrNone =
        .httpErr "Equity caps too tight to replace reduced debt" ∨
      StackError.attrNone = .httpErr "Equity caps too tight to hit DSCR" ∨
      StackError.attrNone = .attrNone :=
  C5_amended pC5 [optD5] (1/100) .attrNone (by with_unfolding_all decide)

/-- Claim C8 (amended): the per-instrument max_ltc ceiling constrains the
second-pass fill for EVERY kind, not only debt/mezz: when an option
carries max_ltc = l, one fill step never lifts that instrument's running
total above max(its current total, l · tdc).  The original claim is false:
changing the max_ltc of a pref or equity option changes the output (see
the counterexample). -/
theorem C8_amended (tdc : ℚ) (st : AllocState) (opt : CapitalOption)
    (l : ℚ) (hl : opt.max_ltc = some l) :
    currentAmt opt.name ((pass2Step tdc st opt).1) ≤
      max (currentAmt opt.name st.1) (l * tdc) :=
  pass2_ltc_cap tdc st opt l hl

/-- Counterexample for C8: optPrefA is a pref instrument with
max_ltc = 1/5; removing only that field changes the successful output. -/
theorem C8_counterexample :
    optPrefA.kind = InstrKind.pref ∧
      optPrefAnol =
        ⟨optPrefA.name, optPrefA.kind, optPrefA.annual_cost, optPrefA.points,
          optPrefA.min_share, optPrefA.max_share, none,
          optPrefA.enforce_dscr⟩ ∧
      optimize_stack pC1 [optPrefA, optEq1] (1/100) = .ok stackC1 ∧
      optimize_stack pC1 [optPrefAnol, optEq1] (1/100) = .ok stackC1b ∧
      stackC1 ≠ stackC1b :=
  ⟨rfl, rfl, by with_unfolding_all decide, by with_unfolding_all decide,
   by with_unfolding_all decide⟩

/-- Witness for C8: one pass-2 step on an empty ledger with optPrefA. -/
theorem C8_witness :
    currentAmt optPrefA.name
        ((pass2Step pC1.tdc (([] : List Alloc), pC1.tdc) optPrefA).1) ≤
      max (currentAmt optPrefA.name ([] : List Alloc)) (1/5 * pC1.tdc) :=
  C8_amended pC1.tdc (([] : List Alloc), pC1.tdc) optPrefA (1/5)
    (by with_unfolding_all decide)

/-- Claim C1 (amended): for a success under the regularity hypotheses
(pairwise-distinct names, tdc > 0, positive annual costs, DSCR-enforced
debt carrying no minimum share, nonnegative project LTC cap, noi ≥ 0,
min_dscr > 0), the sum of slice amounts equals tdc minus the residual the
allocator silently failed to place minus the sub-1e-6 ledger dust dropped
at aggregation.  Feasibility does NOT bound that residual: the force-fill
caps its top-up at the equity option's max_share and continues silently,
so the sum can fall short of tdc by far more than 1e-6 (counterexample). -/
theorem C1_amended (p : Project) (opts : List CapitalOption) (g : ℚ)
    (hdn : distinctNames opts) (htdc : 0 < p.tdc)
    (hcost : ∀ o ∈ opts, 0 < o.annual_cost)
    (hms : ∀ o ∈ opts, isDebtKind o.kind = true → o.enforce_dscr = true →
      o.min_share ≤ 0)
    (hml : ∀ m, p.max_ltc = some m → 0 ≤ m)
    (hnoi : 0 ≤ p.noi) (hmd : 0 < p.min_dscr)
    (L : List Alloc) (r : ℚ) (hcore : optimize_core p opts = .ok (L, r))
    (stack : CapitalStack) (h : optimize_stack p opts g = .ok stack) :
    sliceAmountSum stack.slices = p.tdc - r - droppedSum L := by
  obtain ⟨L', r', hcore', _, _, _, hslices⟩ := optimize_stack_ok h
  have hinj := Except.ok.inj (hcore'.symm.trans hcore)
  have hL : L' = L := congrArg Prod.fst hinj
  have hr : r' = r := congrArg Prod.snd hinj
  subst hL
  subst hr
  obtain ⟨hsum, _, _, _⟩ := core_analysis p opts hdn htdc hcost hms hml hnoi
    hmd L' r' hcore
  rw [hslices, sliceAmountSum_eq, keptSum_eq]
  linarith

/-- Counterexample for C1: a feasible input on which optimize_stack
succeeds with Σ slice.amount = 7/10 while tdc = 1. -/
theorem C1_counterexample :
    Feasible pC1 [optPrefA, optEq1] ∧
      optimize_stack pC1 [optPrefA, optEq1] (1/100) = .ok stackC1 ∧
      ¬|sliceAmountSum stackC1.slices - pC1.tdc| ≤ tol6 := by
  refine ⟨⟨[1/2, 1/2], ?_, ?_, ?_, ?_, ?_, ?_⟩,
    by with_unfolding_all decide, by with_unfolding_all decide⟩
  · with_unfolding_all decide
  · with_unfolding_all decide
  · with_unfolding_all decide
  · intro m hm
    have h2 : some ((13 : ℚ)/20) = some m := hm
    rw [← Option.some_inj.mp h2]
    with_unfolding_all decide
  · with_unfolding_all decide
  · with_unfolding_all decide

/-- Witness for C1 at the fully-funded concrete input pW. -/
theorem C1_witness :
    sliceAmountSum stackW.slices = pW.tdc - 0 - droppedSum ledgerW := by
  refine C1_amended pW [oSD, oCE] (1/100) (by decide)
    (by with_unfolding_all decide) (by with_unfolding_all decide)
    (by with_unfolding_all decide) ?_ (by with_unfolding_all decide)
    (by with_unfolding_all decide) ledgerW 0 (by with_unfolding_all decide)
    stackW (by with_unfolding_all decide)
  intro m hm
  have h2 : some ((13 : ℚ)/20) = some m := hm
  rw [← Option.some_inj.mp h2]
  with_unfolding_all decide

/-- Claim C2 (amended): under the regularity hypotheses, a successful
stack satisfies the DSCR covenant in the absolute-service form the code
actually enforces: the annual service carried by DSCR-enforced debt/mezz
slices is at most noi / min_dscr + 1e-6 (the correction walks entries in
descending annual_cost).  The ratio form of the original claim
(dscr ≥ min_dscr − ε) is false: the 1e-6 slack lives on the service, so
when noi itself is of order 1e-6 the final dscr lands far below min_dscr
(counterexample). -/
theorem C2_amended (p : Project) (opts : List CapitalOption) (g : ℚ)
    (hdn : distinctNames opts) (htdc : 0 < p.tdc)
    (hcost : ∀ o ∈ opts, 0 < o.annual_cost)
    (hms : ∀ o ∈ opts, isDebtKind o.kind = true → o.enforce_dscr = true →
      o.min_share ≤ 0)
    (hml : ∀ m, p.max_ltc = some m → 0 ≤ m)
    (hnoi : 0 ≤ p.noi) (hmd : 0 < p.min_dscr)
    (stack : CapitalStack) (h : optimize_stack p opts g = .ok stack) :
    enforcedServiceOfSlices opts stack.slices ≤ p.noi / p.min_dscr + tol6 := by
  obtain ⟨L, r, hcore, _, _, _, hslices⟩ := optimize_stack_ok h
  obtain ⟨_, hserv, hnn, hcl⟩ := core_analysis p opts hdn htdc hcost hms hml
    hnoi hmd L r hcore
  rw [hslices, enfSlices_eq]
  exact le_trans
    (ledgerWSum_enf_le hdn (fun o ho => (hcost o ho).le) hcl hnn) hserv

set_option maxRecDepth 3000 in
/-- Counterexample for C2: the stack returned on pC2 carries enforced
service 2e-6, and dscr = 1e-6 / 2e-6 = 1/2 < min_dscr − ε = 1 − 1e-6. -/
theorem C2_counterexample :
    optimize_stack pC2 [optD2, optE2] (1/100) = .ok stackC2 ∧
      compute_dscr pC2.noi
          (enforcedServiceOfSlices [optD2, optE2] stackC2.slices) =
        .val (1/2) ∧
      dscrLtQ (.val (1/2)) (pC2.min_dscr - tol6) = true :=
  ⟨by with_unfolding_all rfl, by with_unfolding_all decide,
   by with_unfolding_all decide⟩

/-- Witness for C2 at the concrete input pW. -/
theorem C2_witness :
    enforcedServiceOfSlices [oSD, oCE] stackW.slices ≤
      pW.noi / pW.min_dscr + tol6 := by
  refine C2_amended pW [oSD, oCE] (1/100) (by decide)
    (by with_unfolding_all decide) (by with_unfolding_all decide)
    (by with_unfolding_all decide) ?_ (by with_unfolding_all decide)
    (by with_unfolding_all decide) stackW (by with_unfolding_all decide)
  intro m hm
  have h2 : some ((13 : ℚ)/20) = some m := hm
  rw [← Option.some_inj.mp h2]
  with_unfolding_all decide

/-- Claim C3 (amended): with max_ltc set to a nonnegative ml and tdc ≥ 0,
every successful stack carries total debt+mezz slice amount at most
ml · tdc + 1e-6.  But the uniform reduction ratio is
excess / max(total_debt, 1e-9), not excess / total_debt as claimed: when
total_debt < 1e-9 the clamped denominator makes the shrink factor smaller
than claimed (counterexample). -/
theorem C3_amended (p : Project) (opts : List CapitalOption) (g : ℚ)
    (ml : ℚ) (hml : p.max_ltc = some ml) (hml0 : 0 ≤ ml) (htdc : 0 ≤ p.tdc)
    (stack : CapitalStack) (h : optimize_stack p opts g = .ok stack) :
    debtSliceSum stack.slices ≤ ml * p.tdc + tol6 := by
  obtain ⟨L, r, hcore, _, _, _, hslices⟩ := optimize_stack_ok h
  have hpd := core_posDebt p opts ml hml hml0 htdc L r hcore
  rw [hslices, debtSliceSum_eq]
  exact le_trans (ledgerWSum_debt_le_posDebt L) hpd

set_option maxRecDepth 3000 in
/-- Counterexample for C3: on pC3 the pre-correction debt total 5e-10
exceeds the cap 1e-10, yet the correction leaves the debt entry at 3e-10
instead of the value the claimed ratio (excess / total_debt) would give. -/
theorem C3_counterexample :
    stage4 pC3 [optD3, optE3] =
        .ok ([(optD3, 1/2000000000)], 1/2000000000) ∧
      totalDebtAmount [(optD3, (1 : ℚ)/2000000000)] > (1/10) * pC3.tdc ∧
      pC3.max_ltc = some (1/10) ∧
      optimize_core pC3 [optD3, optE3] =
        .ok ([(optD3, 3/10000000000), (optE3, 7/10000000000)], 0) ∧
      (3 : ℚ)/10000000000 ≠
        (1 : ℚ)/2000000000 *
          (1 - ((1 : ℚ)/2000000000 - (1/10) * pC3.tdc) /
            ((1 : ℚ)/2000000000)) :=
  ⟨by with_unfolding_all rfl, by with_unfolding_all decide, rfl,
   by with_unfolding_all rfl, by with_unfolding_all decide⟩

/-- Witness for C3 at the concrete input pW. -/
theorem C3_witness :
    debtSliceSum stackW.slices ≤ (13/20) * pW.tdc + tol6 :=
  C3_amended pW [oSD, oCE] (1/100) (13/20) rfl (by with_unfolding_all decide)
    (by with_unfolding_all decide) stackW (by with_unfolding_all decide)

/-- Claim C4 (amended): with pairwise-distinct option names, if the first
equity option ce (the one every correction uses) has max_share headroom
for the required floor, a successful stack allocates it at least
max(min_equity, ce.min_share) · tdc − 3e-6 — one dropped-entry tolerance
of 1e-6 for each of the at most three ledger entries the instrument can
hold when the floor fires.  With duplicate instrument names the floor can
be skipped entirely and the equity amount can be 0 (counterexample). -/
theorem C4_amended (p : Project) (opts : List CapitalOption) (g : ℚ)
    (hdn : distinctNames opts) (ce : CapitalOption)
    (hce : findEquity opts = some ce)
    (hhead : max (p.min_equity * p.tdc) (ce.min_share * p.tdc) ≤
      ce.max_share * p.tdc)
    (stack : CapitalStack) (h : optimize_stack p opts g = .ok stack) :
    max (p.min_equity * p.tdc) (ce.min_share * p.tdc) - 3 * tol6 ≤
      instrAmount ce stack.slices := by
  obtain ⟨L, r, hcore, _, _, _, hslices⟩ := optimize_stack_ok h
  have hcl := core_closed p opts L r hcore
  have hkept := core_keptNamed p opts hdn ce hce L r hcore
  have hcur := stage3_equity p opts ce hce hhead
  have hbound := currentAmt_le_keptNamed ce.name (stage3 p opts).1
  have hcount := stage3_namedCount_le p opts hdn ce.name
  rw [hslices, instrSlices_eq hdn (findEquity_mem hce) p.tdc hcl]
  have htol : (0 : ℚ) < tol6 := by norm_num [tol6]
  have hc3 : (namedCount ce.name (stage3 p opts).1 : ℚ) ≤ 3 := by
    exact_mod_cast hcount
  have hmul : (namedCount ce.name (stage3 p opts).1 : ℚ) * tol6 ≤ 3 * tol6 :=
    mul_le_mul_of_nonneg_right hc3 htol.le
  linarith

/-- Counterexample for C4: with duplicate names ("X" debt and "X" equity)
the floor is skipped and the equity instrument ends with amount 0 while
the required floor is 2/5. -/
theorem C4_counterexample :
    findEquity [optD4, optP4, optE4] = some optE4 ∧
      max (pC4.min_equity * pC4.tdc) (optE4.min_share * pC4.tdc) ≤
        optE4.max_share * pC4.tdc ∧
      optimize_stack pC4 [optD4, optP4, optE4] (1/100) = .ok stackC4 ∧
      instrAmount optE4 stackC4.slices = 0 ∧
      instrAmount optE4 stackC4.slices <
        max (pC4.min_equity * pC4.tdc) (optE4.min_share * pC4.tdc) -
          3 * tol6 :=
  ⟨by with_unfolding_all decide, by with_unfolding_all decide,
   by with_unfolding_all decide, by with_unfolding_all decide,
   by with_unfolding_all decide⟩

/-- Witness for C4 at the concrete input pW. -/
theorem C4_witness :
    max (pW.min_equity * pW.tdc) (oCE.min_share * pW.tdc) - 3 * tol6 ≤
      instrAmount oCE stackW.slices :=
  C4_amended pW [oSD, oCE] (1/100) (by decide) oCE
    (by with_unfolding_all decide) (by with_unfolding_all decide) stackW
    (by with_unfolding_all decide)

/-- Claim C10 (amended): when noi = 0 (with distinct names, positive
costs, DSCR-enforced debt carrying no minimum share, nonnegative LTC cap,
min_dscr > 0), every DSCR-enforced debt/mezz slice of a successful stack
carries annual SERVICE at most 1e-6.  The loop tolerance is on annual
service, not principal, so the surviving principal can exceed 1e-6 by the
factor 1/annual_cost (counterexample: principal 1e-4 at cost 1e-2). -/
theorem C10_amended (p : Project) (opts : List CapitalOption) (g : ℚ)
    (hdn : distinctNames opts) (htdc : 0 < p.tdc)
    (hcost : ∀ o ∈ opts, 0 < o.annual_cost)
    (hms : ∀ o ∈ opts, isDebtKind o.kind = true → o.enforce_dscr = true →
      o.min_share ≤ 0)
    (hml : ∀ m, p.max_ltc = some m → 0 ≤ m)
    (hnoi : p.noi = 0) (hmd : 0 < p.min_dscr)
    (stack : CapitalStack) (h : optimize_stack p opts g = .ok stack) :
    ∀ s ∈ stack.slices,
      (isDebtKind s.kind && enfFlag opts s.option_name) = true →
      s.amount * s.annual_cost ≤ tol6 := by
  obtain ⟨L, r, hcore, _, _, _, hslices⟩ := optimize_stack_ok h
  obtain ⟨_, hserv, hnn, hcl⟩ := core_analysis p opts hdn htdc hcost hms hml
    (le_of_eq hnoi.symm) hmd L r hcore
  have hserv0 : totalAnnualDebt L ≤ tol6 := by
    rw [hnoi, zero_div] at hserv
    linarith
  have henf : enforcedServiceOfSlices opts stack.slices ≤ tol6 := by
    rw [hslices, enfSlices_eq]
    exact le_trans
      (ledgerWSum_enf_le hdn (fun o ho => (hcost o ho).le) hcl hnn) hserv0
  have hkeys := aggregate_pos_key (fun k => 0 ≤ k.2.2) L
    (fun e he hgt => (hcost e.1 (hcl e he)).le)
  have hsl : ∀ s ∈ stack.slices, 0 ≤ s.amount ∧ 0 ≤ s.annual_cost := by
    intro s hs
    rw [hslices] at hs
    obtain ⟨kv, hkv, rfl⟩ := buildSlices_mem hs
    obtain ⟨hpos, hcost2⟩ := hkeys kv hkv
    exact ⟨hpos.le, hcost2⟩
  intro s hs hcond
  exact le_trans (enfService_single_le opts stack.slices hsl s hs hcond) henf

set_option maxRecDepth 3000 in
/-- Counterexample for C10: on pC10 (noi = 0) the returned stack still
holds the enforced debt slice "D" with principal 1e-4 > 1e-6. -/
theorem C10_counterexample :
    pC10.noi = 0 ∧
      distinctNames [optD10, optE10] ∧
      optimize_stack pC10 [optD10, optE10] (1/100) = .ok stackC10 ∧
      stackC10.slices.any (fun s =>
        isDebtKind s.kind && enfFlag [optD10, optE10] s.option_name &&
          decide (tol6 < s.amount)) = true :=
  ⟨rfl, by decide, by with_unfolding_all rfl,
   by with_unfolding_all decide⟩

set_option maxRecDepth 3000 in
/-- Witness for C10 at the "D" slice of the stack returned on pC10. -/
theorem C10_witness :
    (⟨"D", InstrKind.debt, 1/10000, 1/10000, 1/100⟩ : StackSlice).amount *
        (⟨"D", InstrKind.debt, 1/10000, 1/10000,
          1/100⟩ : StackSlice).annual_cost ≤
      tol6 := by
  refine C10_amended pC10 [optD10, optE10] (1/100) (by decide)
    (by with_unfolding_all decide) (by with_unfolding_all decide)
    (by with_unfolding_all decide) ?_ rfl (by with_unfolding_all decide)
    stackC10 (by with_unfolding_all rfl)
    ⟨"D", InstrKind.debt, 1/10000, 1/10000, 1/100⟩
    (by exact List.Mem.head _) (by with_unfolding_all decide)
  intro m hm
  have h2 : some ((1 : ℚ)) = some m := hm
  rw [← Option.some_inj.mp h2]
  with_unfolding_all decide
